import Mathlib

/-!
Verification of `eq_phase_rec.py` (phase reconstruction from dynamical
equations).

The Python source is shallowly embedded over exact rationals.  A system
state (a Python list of floats) becomes `List ℚ`; the vector field (a
Python list of derivative callables) becomes `List (State → ℚ)`.  The
math-library functions `sqrt`, `exp`, `log` and the constant `pi` are
taken as parameters of the definitions that use them; theorems quantify
over them (with positivity assumptions wherever control flow depends on
a sign), so they hold in particular for the true real-valued functions.

Python behaviours that cannot be captured by a total function are made
explicit:

* potentially non-terminating `while` loops take a fuel argument, and
  exhausting it yields `Res.fuelOut`;
* divisions whose divisor is a runtime quantity that can genuinely
  vanish are modelled by the checked division `fdiv`, yielding
  `Res.divZero` exactly where Python raises `ZeroDivisionError`;
* divisions by quantities that are structurally nonzero in every run
  the theorems speak about (literal constants, `period`, `sampling+1`,
  `2*pi`) use total field division, with the caveat recorded in the
  corresponding doc comment.
-/

namespace EqPhaseRec

/-- A system state: the Python list of coordinate values. -/
abbrev State := List ℚ

/-- A vector field: one derivative function per coordinate, as in the
Python list `ders`. -/
abbrev Ders := List (State → ℚ)

/-- Python `s[i]` for a state list (out-of-range access, which raises in
Python, returns the junk value 0; no theorem in this file exercises it). -/
def nth (s : State) (i : ℕ) : ℚ := s.getD i 0

/-- Python `ders[i](s)` (out-of-range access returns the junk constant-0
derivative; no theorem exercises it). -/
def der (ders : Ders) (i : ℕ) (s : State) : ℚ := (ders.getD i (fun _ => 0)) s

/-- Coordinate 0 of a state, the coordinate the Poincaré section is
defined on. -/
def x0 (s : State) : ℚ := nth s 0

/-- Result of running a piece of the Python code: a value, a
`ZeroDivisionError`, or failure to finish within the supplied fuel
(modelling non-termination). -/
inductive Res (α : Type) where
  | ok : α → Res α
  | divZero : Res α
  | fuelOut : Res α
deriving DecidableEq

/-- Sequencing of fallible computations: errors propagate. -/
def Res.bind {α β : Type} : Res α → (α → Res β) → Res β
  | .ok a, f => f a
  | .divZero, _ => .divZero
  | .fuelOut, _ => .fuelOut

instance : Monad Res where
  pure := Res.ok
  bind := Res.bind

/-- Whether a result is a value. -/
def Res.isOk {α : Type} : Res α → Bool
  | .ok _ => true
  | _ => false

/-- Extract the value of a result, with a default. -/
def Res.getD {α : Type} : Res α → α → α
  | .ok a, _ => a
  | _, d => d

@[simp] theorem Res.bind_ok {α β : Type} (a : α) (f : α → Res β) :
    Res.bind (.ok a) f = f a := rfl

@[simp] theorem Res.bind_divZero {α β : Type} (f : α → Res β) :
    Res.bind (.divZero) f = .divZero := rfl

@[simp] theorem Res.bind_fuelOut {α β : Type} (f : α → Res β) :
    Res.bind (.fuelOut) f = .fuelOut := rfl

theorem Res.bind_eq_ok {α β : Type} {e : Res α} {f : α → Res β} {b : β} :
    Res.bind e f = .ok b ↔ ∃ a, e = .ok a ∧ f a = .ok b := by
  cases e <;> simp [Res.bind]

/-- Python float division `a / b`: raises `ZeroDivisionError` when the
divisor is zero. -/
def fdiv (a b : ℚ) : Res ℚ := if b = 0 then .divZero else .ok (a / b)

/-- Python `distance`: Euclidean distance between two states; `sqrt` stands for
`math.sqrt`. -/
def distance (sqrt : ℚ → ℚ) (state1 state2 : State) : ℚ :=
  sqrt (((List.range state1.length).map (fun i => (nth state1 i - nth state2 i) ^ 2)).sum)

/-- Python `set_initial_state`: the default initial state is `0.5` in every
coordinate. -/
def set_initial_state (initial_state : Option State) (ders : Ders) : State :=
  match initial_state with
  | none => (List.range ders.length).map (fun _ => (1 : ℚ) / 2)
  | some s => s

/-- Python `one_step_integrator`: one classical RK4 step of size `dt`. -/
def one_step_integrator (state : State) (ders : Ders) (dt : ℚ) : State :=
  let D := state.length
  let k1 := (List.range D).map (fun i => der ders i state)
  let state2 := (List.range D).map (fun i => nth state i + nth k1 i * dt / 2)
  let k2 := (List.range D).map (fun i => der ders i state2)
  let state3 := (List.range D).map (fun i => nth state i + nth k2 i * dt / 2)
  let k3 := (List.range D).map (fun i => der ders i state3)
  let state4 := (List.range D).map (fun i => nth state i + nth k3 i * dt)
  let k4 := (List.range D).map (fun i => der ders i state4)
  (List.range D).map
    (fun i => nth state i + (nth k1 i + 2 * nth k2 i + 2 * nth k3 i + nth k4 i) / 6 * dt)

/-- Python `integrate_period`: `floor(period/dt)` RK4 steps of size `dt` (none
when the floor is negative, mirroring the empty Python `range`), then one
step of the remainder.  A zero `dt` raises in Python; every theorem
below supplies `dt ≠ 0`. -/
def integrate_period (state : State) (ders : Ders) (period : ℚ) (dt : ℚ) : State :=
  let n := ⌊period / dt⌋
  let state := (fun s => one_step_integrator s ders dt)^[n.toNat] state
  one_step_integrator state ders (period - n * dt)

/-- One forward RK4 step, as a function of the state (used to phrase
trajectory facts). -/
def stepF (ders : Ders) (dt : ℚ) (s : State) : State := one_step_integrator s ders dt

/-- The discrete trajectory of repeated RK4 steps from `s`. -/
def traj (ders : Ders) (dt : ℚ) (s : State) : ℕ → State
  | 0 => s
  | k + 1 => stepF ders dt (traj ders dt s k)

/-- The step from sample `k` to sample `k+1` crosses the threshold
upward in the strict sense tested by the loop condition of the source:
previous value strictly below `thr`, next value strictly above. -/
def crossStep (ders : Ders) (thr dt : ℚ) (s : State) (k : ℕ) : Prop :=
  x0 (traj ders dt s k) < thr ∧ thr < x0 (traj ders dt s (k + 1))

instance (ders : Ders) (thr dt : ℚ) (s : State) (k : ℕ) :
    Decidable (crossStep ders thr dt s k) := by
  unfold crossStep; exact inferInstance

/-- The crossing-search loop shared by `integrate_up_to_thr` and
`time_up_to_thr`: the Python loop
`while((state[0] > thr and xh < thr) == False): xh = state[0]; state = step(state)`,
with a fuel bound standing for the unbounded iteration. -/
def upToThrLoop (ders : Ders) (thr dt : ℚ) : ℕ → ℚ → State → Res State
  | 0, _, _ => .fuelOut
  | fuel + 1, xh, state =>
    if thr < x0 state ∧ xh < thr then .ok state
    else upToThrLoop ders thr dt fuel (x0 state) (one_step_integrator state ders dt)

/-- Python `integrate_up_to_thr`: run the crossing loop, then apply the Hénon
corrective step `-dt_over` with `dt_over = (state[0]-thr)/ders[0](state)`.
The division is checked: Python raises `ZeroDivisionError` when the
coordinate-0 derivative vanishes at the detected state. -/
def integrate_up_to_thr (state : State) (ders : Ders) (thr dt : ℚ) (fuel : ℕ) : Res State :=
  Res.bind (upToThrLoop ders thr dt fuel (x0 state) state) (fun state =>
    Res.bind (fdiv 1 (der ders 0 state)) (fun inv =>
      .ok (one_step_integrator state ders (-(inv * (x0 state - thr))))))

/-- The crossing-search loop of `time_up_to_thr`, additionally
accumulating the elapsed time (`time += dt` after every step). -/
def timeLoop (ders : Ders) (thr dt : ℚ) : ℕ → ℚ → State → ℚ → Res (State × ℚ)
  | 0, _, _, _ => .fuelOut
  | fuel + 1, xh, state, time =>
    if thr < x0 state ∧ xh < thr then .ok (state, time)
    else timeLoop ders thr dt fuel (x0 state) (one_step_integrator state ders dt) (time + dt)

/-- Python `time_up_to_thr`: elapsed time to the crossing minus the Hénon
correction `dt_over`; the division by `ders[0](state)` is checked. -/
def time_up_to_thr (state : State) (ders : Ders) (thr dt : ℚ) (fuel : ℕ) : Res ℚ :=
  Res.bind (timeLoop ders thr dt fuel (x0 state) state 0) (fun p =>
    Res.bind (fdiv 1 (der ders 0 p.1)) (fun inv =>
      .ok (p.2 - inv * (x0 p.1 - thr))))

theorem traj_shift (ders : Ders) (dt : ℚ) (s : State) (k : ℕ) :
    traj ders dt (stepF ders dt s) k = traj ders dt s (k + 1) := by
  induction k with
  | zero => rfl
  | succ k ih => simp [traj, ih]

theorem crossStep_shift (ders : Ders) (thr dt : ℚ) (s : State) (k : ℕ) :
    crossStep ders thr dt (stepF ders dt s) k ↔ crossStep ders thr dt s (k + 1) := by
  unfold crossStep
  rw [traj_shift, traj_shift]

theorem upToThrLoop_succ (ders : Ders) (thr dt : ℚ) (fuel : ℕ) (xh : ℚ) (state : State) :
    upToThrLoop ders thr dt (fuel + 1) xh state =
      if thr < x0 state ∧ xh < thr then .ok state
      else upToThrLoop ders thr dt fuel (x0 state) (stepF ders dt state) := rfl

theorem timeLoop_succ (ders : Ders) (thr dt : ℚ) (fuel : ℕ) (xh : ℚ) (state : State) (time : ℚ) :
    timeLoop ders thr dt (fuel + 1) xh state time =
      if thr < x0 state ∧ xh < thr then .ok (state, time)
      else timeLoop ders thr dt fuel (x0 state) (stepF ders dt state) (time + dt) := rfl

theorem self_check_false (thr v : ℚ) : ¬ (thr < v ∧ v < thr) := by
  rintro ⟨h1, h2⟩
  exact absurd (h1.trans h2) (lt_irrefl thr)

/-- The entry check of the crossing loop compares the head coordinate
with itself and therefore never fires: the loop always takes at least
one RK4 step. -/
theorem upToThrLoop_entry (ders : Ders) (thr dt : ℚ) (s : State) (fuel : ℕ) :
    upToThrLoop ders thr dt (fuel + 1) (x0 s) s =
      upToThrLoop ders thr dt fuel (x0 s) (stepF ders dt s) := by
  rw [upToThrLoop_succ, if_neg (self_check_false thr (x0 s))]

/-- The entry check of the time-accumulating loop never fires either. -/
theorem timeLoop_entry (ders : Ders) (thr dt : ℚ) (s : State) (c : ℚ) (fuel : ℕ) :
    timeLoop ders thr dt (fuel + 1) (x0 s) s c =
      timeLoop ders thr dt fuel (x0 s) (stepF ders dt s) (c + dt) := by
  rw [timeLoop_succ, if_neg (self_check_false thr (x0 s))]

theorem upToThrLoop_from_step_ok_iff (ders : Ders) (thr dt : ℚ) :
    ∀ (fuel : ℕ) (s t : State),
      upToThrLoop ders thr dt fuel (x0 s) (stepF ders dt s) = .ok t ↔
        ∃ k, k + 1 ≤ fuel ∧ crossStep ders thr dt s k ∧
          (∀ j < k, ¬ crossStep ders thr dt s j) ∧ t = traj ders dt s (k + 1) := by
  intro fuel
  induction fuel with
  | zero =>
    intro s t
    constructor
    · intro h; cases h
    · rintro ⟨k, hk, _⟩; omega
  | succ fuel ih =>
    intro s t
    rw [upToThrLoop_succ]
    by_cases h0 : crossStep ders thr dt s 0
    · have hcond : thr < x0 (stepF ders dt s) ∧ x0 s < thr := ⟨h0.2, h0.1⟩
      rw [if_pos hcond]
      constructor
      · intro h
        injection h with h
        exact ⟨0, by omega, h0, by omega, by simpa [traj] using h.symm⟩
      · rintro ⟨k, hk, hc, hmin, ht⟩
        have hk0 : k = 0 := by
          by_contra hne
          exact hmin 0 (Nat.pos_of_ne_zero hne) h0
        subst hk0
        simp [traj, ht]
    · have hcond : ¬ (thr < x0 (stepF ders dt s) ∧ x0 s < thr) := by
        rintro ⟨h1, h2⟩
        exact h0 ⟨h2, h1⟩
      rw [if_neg hcond]
      rw [ih (stepF ders dt s) t]
      constructor
      · rintro ⟨k, hk, hc, hmin, ht⟩
        refine ⟨k + 1, by omega, (crossStep_shift ders thr dt s k).mp hc, ?_, ?_⟩
        · intro j hj
          cases j with
          | zero => exact h0
          | succ j =>
            intro hcj
            exact hmin j (by omega) ((crossStep_shift ders thr dt s j).mpr hcj)
        · rw [ht, traj_shift]
      · rintro ⟨k, hk, hc, hmin, ht⟩
        cases k with
        | zero => exact absurd hc h0
        | succ k =>
          refine ⟨k, by omega, (crossStep_shift ders thr dt s k).mpr hc, ?_, ?_⟩
          · intro j hj hcj
            exact hmin (j + 1) (by omega) ((crossStep_shift ders thr dt s j).mp hcj)
          · rw [ht, traj_shift]

theorem timeLoop_from_step_ok_iff (ders : Ders) (thr dt : ℚ) :
    ∀ (fuel : ℕ) (s t : State) (c τ : ℚ),
      timeLoop ders thr dt fuel (x0 s) (stepF ders dt s) (c + dt) = .ok (t, τ) ↔
        ∃ k, k + 1 ≤ fuel ∧ crossStep ders thr dt s k ∧
          (∀ j < k, ¬ crossStep ders thr dt s j) ∧ t = traj ders dt s (k + 1) ∧
          τ = c + (k + 1 : ℕ) * dt := by
  intro fuel
  induction fuel with
  | zero =>
    intro s t c τ
    constructor
    · intro h; cases h
    · rintro ⟨k, hk, _⟩; omega
  | succ fuel ih =>
    intro s t c τ
    rw [timeLoop_succ]
    by_cases h0 : crossStep ders thr dt s 0
    · have hcond : thr < x0 (stepF ders dt s) ∧ x0 s < thr := ⟨h0.2, h0.1⟩
      rw [if_pos hcond]
      constructor
      · intro h
        injection h with h
        have h1 : stepF ders dt s = t := congrArg Prod.fst h
        have h2 : c + dt = τ := congrArg Prod.snd h
        refine ⟨0, by omega, h0, by omega, by simpa [traj] using h1.symm, ?_⟩
        rw [← h2]; push_cast; ring
      · rintro ⟨k, hk, hc, hmin, ht, hτ⟩
        have hk0 : k = 0 := by
          by_contra hne
          exact hmin 0 (Nat.pos_of_ne_zero hne) h0
        subst hk0
        have : τ = c + dt := by rw [hτ]; push_cast; ring
        simp [traj, ht, this]
    · have hcond : ¬ (thr < x0 (stepF ders dt s) ∧ x0 s < thr) := by
        rintro ⟨h1, h2⟩
        exact h0 ⟨h2, h1⟩
      rw [if_neg hcond]
      have hacc : c + dt + dt = (c + dt) + dt := by ring
      rw [hacc, ih (stepF ders dt s) t (c + dt) τ]
      constructor
      · rintro ⟨k, hk, hc, hmin, ht, hτ⟩
        refine ⟨k + 1, by omega, (crossStep_shift ders thr dt s k).mp hc, ?_, ?_, ?_⟩
        · intro j hj
          cases j with
          | zero => exact h0
          | succ j =>
            intro hcj
            exact hmin j (by omega) ((crossStep_shift ders thr dt s j).mpr hcj)
        · rw [ht, traj_shift]
        · rw [hτ]; push_cast; ring
      · rintro ⟨k, hk, hc, hmin, ht, hτ⟩
        cases k with
        | zero => exact absurd hc h0
        | succ k =>
          refine ⟨k, by omega, (crossStep_shift ders thr dt s k).mpr hc, ?_, ?_, ?_⟩
          · intro j hj hcj
            exact hmin (j + 1) (by omega) ((crossStep_shift ders thr dt s j).mp hcj)
          · rw [ht, traj_shift]
          · rw [hτ]; push_cast; ring

/-- Full characterisation of the crossing-search loop as called by the
source (`xh` initialised to coordinate 0 of the state itself): it returns
`traj (k+1)` for the first `k` whose step goes from strictly below the
threshold to strictly above it, provided the fuel covers the `k+2`
condition checks. -/
theorem upToThrLoop_ok_iff (ders : Ders) (thr dt : ℚ) (fuel : ℕ) (s t : State) :
    upToThrLoop ders thr dt fuel (x0 s) s = .ok t ↔
      ∃ k, k + 2 ≤ fuel ∧ crossStep ders thr dt s k ∧
        (∀ j < k, ¬ crossStep ders thr dt s j) ∧ t = traj ders dt s (k + 1) := by
  cases fuel with
  | zero =>
    constructor
    · intro h; cases h
    · rintro ⟨k, hk, _⟩; omega
  | succ fuel =>
    rw [upToThrLoop_entry, upToThrLoop_from_step_ok_iff]
    constructor
    · rintro ⟨k, hk, h⟩; exact ⟨k, by omega, h⟩
    · rintro ⟨k, hk, h⟩; exact ⟨k, by omega, h⟩

/-- Full characterisation of the time-accumulating loop: same crossing
index, with elapsed time `(k+1)·dt`. -/
theorem timeLoop_ok_iff (ders : Ders) (thr dt : ℚ) (fuel : ℕ) (s t : State) (τ : ℚ) :
    timeLoop ders thr dt fuel (x0 s) s 0 = .ok (t, τ) ↔
      ∃ k, k + 2 ≤ fuel ∧ crossStep ders thr dt s k ∧
        (∀ j < k, ¬ crossStep ders thr dt s j) ∧ t = traj ders dt s (k + 1) ∧
        τ = (k + 1 : ℕ) * dt := by
  cases fuel with
  | zero =>
    constructor
    · intro h; cases h
    · rintro ⟨k, hk, _⟩; omega
  | succ fuel =>
    rw [timeLoop_entry]
    have h0 : (0 : ℚ) + dt = 0 + dt := rfl
    rw [timeLoop_from_step_ok_iff ders thr dt fuel s t 0 τ]
    constructor
    · rintro ⟨k, hk, hc, hmin, ht, hτ⟩
      exact ⟨k, by omega, hc, hmin, ht, by rw [hτ]; ring⟩
    · rintro ⟨k, hk, hc, hmin, ht, hτ⟩
      exact ⟨k, by omega, hc, hmin, ht, by rw [hτ]; ring⟩

theorem upToThrLoop_ne_divZero (ders : Ders) (thr dt : ℚ) :
    ∀ (fuel : ℕ) (xh : ℚ) (s : State), upToThrLoop ders thr dt fuel xh s ≠ .divZero := by
  intro fuel
  induction fuel with
  | zero => intro xh s h; cases h
  | succ fuel ih =>
    intro xh s
    rw [upToThrLoop_succ]
    by_cases h : thr < x0 s ∧ xh < thr
    · rw [if_pos h]; intro h'; cases h'
    · rw [if_neg h]; exact ih (x0 s) (stepF ders dt s)

theorem timeLoop_ne_divZero (ders : Ders) (thr dt : ℚ) :
    ∀ (fuel : ℕ) (xh : ℚ) (s : State) (c : ℚ), timeLoop ders thr dt fuel xh s c ≠ .divZero := by
  intro fuel
  induction fuel with
  | zero => intro xh s c h; cases h
  | succ fuel ih =>
    intro xh s c
    rw [timeLoop_succ]
    by_cases h : thr < x0 s ∧ xh < thr
    · rw [if_pos h]; intro h'; cases h'
    · rw [if_neg h]; exact ih (x0 s) (stepF ders dt s) (c + dt)

/-- Python `oscillator_period`: warmup, locate a crossing, take one manual step,
then measure the time to the next crossing. -/
def oscillator_period (ders : Ders) (initial_state : Option State)
    (warmup_time thr dt : ℚ) (fuel : ℕ) : Res ℚ := do
  let state := set_initial_state initial_state ders
  let state := integrate_period state ders warmup_time dt
  let state ← integrate_up_to_thr state ders thr dt fuel
  let state := one_step_integrator state ders dt
  let t ← time_up_to_thr state ders thr dt fuel
  .ok (dt + t)

/-- The sampling loop of `sample_limit_cycle`: record the state, then
advance it by `T` along the flow, `n` times. -/
def cycleSamples (ders : Ders) (T dt : ℚ) : ℕ → State → List State
  | 0, _ => []
  | n + 1, state => state :: cycleSamples ders T dt n (integrate_period state ders T dt)

/-- Python `sample_limit_cycle`: warmup, compute the period when not supplied,
move to the zero-phase crossing, record `sampling` states one
`period/sampling` apart, and close the curve by appending the first
sample (`limit_cycle.append(limit_cycle[0])`; for `sampling = 0` Python
raises an `IndexError` here, modelled by the junk default `[]`). -/
def sample_limit_cycle (ders : Ders) (sampling : ℕ) (period : Option ℚ)
    (initial_state : Option State) (warmup_time thr dt : ℚ) (fuel : ℕ) : Res (List State) := do
  let state := set_initial_state initial_state ders
  let state := integrate_period state ders warmup_time dt
  let (state, period) ←
    match period with
    | none => do
        let state ← integrate_up_to_thr state ders thr dt fuel
        let p ← time_up_to_thr state ders thr dt fuel
        Res.ok (state, p)
    | some p => Res.ok (state, p)
  let state ← integrate_up_to_thr state ders thr dt fuel
  let limit_cycle := cycleSamples ders (period / sampling) dt sampling state
  .ok (limit_cycle ++ [limit_cycle.getD 0 []])

/-- The coordinate-wise average of a list of states over the first `D`
coordinates — the comprehension
`[sum([l[i][s] for i in range(len(l))])/len(l) for s in range(len(ders))]`
appearing verbatim in `oscillator_floquet`, `inside_limit_cycle` and
`sample_local_isostable`. -/
def list_avg (D : ℕ) (l : List State) : State :=
  (List.range D).map
    (fun s => ((List.range l.length).map (fun i => nth (l.getD i []) s)).sum / l.length)

/-- One Floquet contraction-rate measurement from the loop body of
`oscillator_floquet`: shift a cycle point towards/away from the centroid by
`factor`, integrate one and two periods, and return `log(d1/d2)/period`.
Both divisions are checked: Python raises `ZeroDivisionError` when the
two-period distance `d2` vanishes (the perturbed one-period image
coinciding with the two-period image) and when `period` is zero. -/
def floquet_one (sqrt log : ℚ → ℚ) (ders : Ders) (period dt : ℚ)
    (lc_avg pt : State) (factor : ℚ) : Res ℚ :=
  let state_p := (List.range ders.length).map
    (fun s => nth lc_avg s + (nth pt s - nth lc_avg s) * factor)
  let state_1 := integrate_period state_p ders period dt
  let state_2 := integrate_period state_1 ders period dt
  let d1 := distance sqrt state_p state_1
  let d2 := distance sqrt state_1 state_2
  Res.bind (fdiv d1 d2) (fun r => fdiv (log r) period)

/-- The measurement loop of `oscillator_floquet` (loop index, remaining
iteration count, running `exponent_sum` and `exponent_measures`): one
outward (`1+shift`) and one inward (`1-shift`) measurement per
iteration, each of which can raise `ZeroDivisionError`, aborting the
whole computation as in Python. -/
def floquetLoop (sqrt log : ℚ → ℚ) (ders : Ders) (period dt : ℚ)
    (lc_avg : State) (limitc : List State) (shift : ℚ) :
    ℕ → ℕ → ℚ → ℕ → Res (ℚ × ℕ)
  | _, 0, exponent_sum, exponent_measures => .ok (exponent_sum, exponent_measures)
  | i, count + 1, exponent_sum, exponent_measures => do
    let m_out ← floquet_one sqrt log ders period dt lc_avg (limitc.getD i []) (1 + shift)
    let m_in ← floquet_one sqrt log ders period dt lc_avg (limitc.getD i []) (1 - shift)
    floquetLoop sqrt log ders period dt lc_avg limitc shift (i + 1) count
      (exponent_sum + m_out + m_in) (exponent_measures + 2)

/-- Python `oscillator_floquet`: sample the limit cycle, average it, then loop
`for i in range(len(limitc))` accumulating two measurements (outward
`1+shift`, inward `1-shift`) and a count per element, returning
`exponent_sum/exponent_measures` (the count is at least 2, so that
final division is structurally safe). -/
def oscillator_floquet (sqrt log : ℚ → ℚ) (ders : Ders) (period : ℚ)
    (initial_state : Option State) (warmup_time shift : ℚ) (sampling : ℕ)
    (thr dt : ℚ) (fuel : ℕ) : Res ℚ := do
  let limitc ← sample_limit_cycle ders sampling (some period) initial_state warmup_time thr dt fuel
  let lc_avg := list_avg ders.length limitc
  let acc ← floquetLoop sqrt log ders period dt lc_avg limitc shift 0 limitc.length 0 0
  .ok (acc.1 / (acc.2 : ℚ))

/-- Python `oscillator_phase`: relax for `warmup_periods` periods, then measure
the time to the section and return `2π(1 - time/period)`.  `pi` stands
for `math.pi`; `period = 0` would raise upstream in Python, and every
theorem below assumes `period > 0`. -/
def oscillator_phase (pi : ℚ) (ders : Ders) (state : State)
    (period warmup_periods thr dt : ℚ) (fuel : ℕ) : Res ℚ := do
  let state := integrate_period state ders (warmup_periods * period) dt
  let time ← time_up_to_thr state ders thr dt fuel
  .ok (2 * pi * (1 - time / period))

/-- The trajectory recording of `inside_limit_cycle`: `n` RK4 steps,
keeping each post-step state. -/
def trajList (ders : Ders) (dt : ℚ) : ℕ → State → List State
  | 0, _ => []
  | n + 1, state =>
    let s1 := one_step_integrator state ders dt
    s1 :: trajList ders dt n s1

/-- Total per-coordinate variance of a recorded trajectory (the
`lc_std` sum in `inside_limit_cycle`).  An empty trajectory
(`period < dt`) makes Python raise `ZeroDivisionError`; the total
division returns junk there, and no theorem exercises that case. -/
def traj_var (D : ℕ) (l : List State) : ℚ :=
  let avg := list_avg D l
  ((List.range D).map
    (fun s => ((List.range l.length).map (fun i => (nth (l.getD i []) s - nth avg s) ^ 2)).sum
      / l.length)).sum

/-- Python `inside_limit_cycle`: compare the dispersion of one period of
forward flow against one period of backward flow. -/
def inside_limit_cycle (state : State) (ders : Ders) (period dt : ℚ) : Bool :=
  let n := (⌊period / dt⌋).toNat
  let forward := trajList ders dt n state
  let std_f := traj_var ders.length forward
  let backward := trajList ders (-dt) n state
  let std_b := traj_var ders.length backward
  if std_b < std_f then true else false

/-- Python `oscillator_amplitude`: measure the phase, flow forward onto the
zero isochron, determine the side, and return
`0.5*sign*distance*exp(floquet*time)`.  The call to
`inside_limit_cycle` omits `dt` in the source, so the Python default
`0.005 = 1/200` applies there. -/
def oscillator_amplitude (pi : ℚ) (sqrt exp : ℚ → ℚ) (state : State) (ders : Ders)
    (period floquet : ℚ) (zero_phase_lc : State) (phase_warmup_periods thr dt : ℚ)
    (fuel : ℕ) : Res ℚ := do
  let phase ← oscillator_phase pi ders state period phase_warmup_periods thr dt fuel
  let time := (1 - phase / (2 * pi)) * period
  let state := integrate_period state ders time dt
  let sign : ℚ := if inside_limit_cycle state ders period (1 / 200) then -1 else 1
  .ok (1 / 2 * sign * distance sqrt state zero_phase_lc * exp (floquet * time))

/-- The per-coordinate recombination
`[limitc[s][i] + (state_sh[i] - limitc[s][i])*factor for i in range(len(ders))]`
used twice in the loop body of `sample_local_isostable`. -/
def combine (D : ℕ) (lc_s state_sh : State) (factor : ℚ) : State :=
  (List.range D).map (fun i => nth lc_s i + (nth state_sh i - nth lc_s i) * factor)

/-- The main loop of `sample_local_isostable` (loop variable `s`
counting up, remaining iteration count, current shifted state): record
the state, advance one sampling interval, rescale the deviation by
`exp(floquet*period/sampling)`, correct the residual phase drift, and
rescale the amplitude back to `ampl0`.  The divisions by
`abs(phase_diff)` and by `ampl` are checked: Python raises
`ZeroDivisionError` when either vanishes. -/
def isoLoop (pi : ℚ) (sqrt exp : ℚ → ℚ) (ders : Ders) (sampling : ℕ)
    (period floquet : ℚ) (limitc : List State) (ampl0 thr dt : ℚ) (fuel : ℕ) :
    ℕ → ℕ → State → Res (List State)
  | _, 0, _ => .ok []
  | s, count + 1, state_sh => do
    let state_sh1 := integrate_period state_sh ders (period / sampling) dt
    let factor := exp (floquet * period / sampling)
    let state_sh2 := combine ders.length (limitc.getD s []) state_sh1 factor
    let ph ← oscillator_phase pi ders state_sh2 period 5 thr dt fuel
    let phase_diff := 2 * pi * (s + 1 : ℕ) / sampling - ph
    let q ← fdiv phase_diff |phase_diff|
    let state_sh3 := integrate_period state_sh2 ders (phase_diff / (2 * pi) * period) (q * dt)
    let ampl ← oscillator_amplitude pi sqrt exp state_sh3 ders period floquet
      (limitc.getD 0 []) 5 thr dt fuel
    let q2 ← fdiv ampl0 ampl
    let state_sh4 := combine ders.length (limitc.getD s []) state_sh3 q2
    let rest ← isoLoop pi sqrt exp ders sampling period floquet limitc ampl0 thr dt fuel
      (s + 1) count state_sh4
    .ok (state_sh :: rest)

/-- Python `sample_local_isostable`: sample the limit cycle, shift the first
point off it, re-align its phase to zero (the division by `abs(phase)`
is checked — Python raises when the measured phase is exactly zero),
measure the reference amplitude, run the correction loop, and close the
curve by appending the first element. -/
def sample_local_isostable (pi : ℚ) (sqrt exp : ℚ → ℚ) (ders : Ders) (sampling : ℕ)
    (period floquet sign shift : ℚ) (initial_state : Option State)
    (warmup_periods thr dt : ℚ) (fuel : ℕ) : Res (List State) := do
  let limitc ← sample_limit_cycle ders sampling (some period) initial_state
    (warmup_periods * period) thr dt fuel
  let lc_avg := list_avg ders.length limitc
  let state_sh := (List.range ders.length).map
    (fun s => nth lc_avg s + (nth (limitc.getD 0 []) s - nth lc_avg s) * (1 + sign * shift))
  let phase ← oscillator_phase pi ders state_sh period 5 thr dt fuel
  let phase := if pi < phase then phase - 2 * pi else phase
  let q ← fdiv (-phase) |phase|
  let state_sh := integrate_period state_sh ders (-phase / (2 * pi) * period) (q * dt)
  let ampl0 ← oscillator_amplitude pi sqrt exp state_sh ders period floquet
    (limitc.getD 0 []) 5 thr dt fuel
  let iso ← isoLoop pi sqrt exp ders sampling period floquet limitc ampl0 thr dt fuel
    0 sampling state_sh
  .ok (iso ++ [iso.getD 0 []])

/-- The variant of `oscillator_floquet` described by the specification:
"the arithmetic mean of `2 × sampling` such measurements (one inward +
one outward per sample point)".  Identical to the source except that the
measurement loop visits the `sampling` sample points instead of all
`sampling + 1` entries of the closed sample list. -/
def oscillator_floquet_claimed (sqrt log : ℚ → ℚ) (ders : Ders) (period : ℚ)
    (initial_state : Option State) (warmup_time shift : ℚ) (sampling : ℕ)
    (thr dt : ℚ) (fuel : ℕ) : Res ℚ := do
  let limitc ← sample_limit_cycle ders sampling (some period) initial_state warmup_time thr dt fuel
  let lc_avg := list_avg ders.length limitc
  let acc ← floquetLoop sqrt log ders period dt lc_avg limitc shift 0 sampling 0 0
  .ok (acc.1 / (acc.2 : ℚ))

/-- Python `int(q)` for a float value: truncation toward zero. -/
def pyint (q : ℚ) : ℤ := if 0 ≤ q then ⌊q⌋ else ⌈q⌉

/-- Backward evolution of every point of a ring by `T`
(`integrate_period(ring[i], ders, -T, -dt)`). -/
def evolveRing (ders : Ders) (T dt : ℚ) (ring : List State) : List State :=
  ring.map (fun st => integrate_period st ders (-T) (-dt))

/-- Backward evolution of the first `n` points of a ring, leaving the
rest untouched — the `for i in range(n)` loops of the source index a ring
whose length may exceed `n` (`oscillator_isochrons` evolves only the
first `N` of the `N+1` points; a ring shorter than `n` raises an
`IndexError` in Python, not modelled). -/
def evolveRingUpTo (ders : Ders) (T dt : ℚ) (n : ℕ) (ring : List State) : List State :=
  ring.mapIdx (fun i st => if i < n then integrate_period st ders (-T) (-dt) else st)

/-- The shell loop of `oscillator_isostables` (shell counter `n`
starting at 1, remaining count, running rings, current `evolve_time`):
evolve both rings backward, append inside then outside, recompute the
evolve time as `log((n+1)/n)/floquet`. -/
def isostablesLoop (log : ℚ → ℚ) (ders : Ders) (floquet dt : ℚ) :
    ℕ → ℕ → List State → List State → ℚ → List (List State)
  | _, 0, _, _, _ => []
  | n, count + 1, iso_in, iso_out, evolve_time =>
    let iso_in' := evolveRing ders evolve_time dt iso_in
    let iso_out' := evolveRingUpTo ders evolve_time dt iso_in.length iso_out
    iso_in' :: iso_out' ::
      isostablesLoop log ders floquet dt (n + 1) count iso_in' iso_out'
        (log (((n : ℚ) + 1) / (n : ℚ)) / floquet)

/-- Python `oscillator_isostables`: from the two local rings, repeatedly evolve
backward by `log(amplitude_unit/amplitude0)/floquet`, then
`log((n+1)/n)/floquet`, collecting the rings pairwise (inside before
outside) in increasing-amplitude order.  `period` is accepted but, as in
the source, unused.  A zero `floquet` raises in Python; the total
division returns junk and no theorem exercises it. -/
def oscillator_isostables (log : ℚ → ℚ) (ders : Ders)
    (local_iso_in local_iso_out : List State) (amplitude0 period floquet : ℚ)
    (number_of_isostables : ℕ) (amplitude_unit dt : ℚ) : List (List State) :=
  isostablesLoop log ders floquet dt 1 number_of_isostables local_iso_in local_iso_out
    (log (amplitude_unit / amplitude0) / floquet)

/-- The backward sweep of `oscillator_isochrons` (time index `t`
starting at 1, remaining count, running rings, per-index histories):
evolve the first `N` points of both rings, then append the index-shifted
point `(i+t) % N` to history `i`. -/
def isochronsLoop (ders : Ders) (timestep dt : ℚ) (N : ℕ) :
    ℕ → ℕ → List State → List State → List (List State) → List (List State) →
      List (List State) × List (List State)
  | _, 0, _, _, acc_in, acc_out => (acc_in, acc_out)
  | t, count + 1, iso_in, iso_out, acc_in, acc_out =>
    let iso_in' := evolveRingUpTo ders timestep dt N iso_in
    let iso_out' := evolveRingUpTo ders timestep dt N iso_out
    let acc_in' := (List.range N).map
      (fun i => acc_in.getD i [] ++ [iso_in'.getD ((i + t) % N) []])
    let acc_out' := (List.range N).map
      (fun i => acc_out.getD i [] ++ [iso_out'.getD ((i + t) % N) []])
    isochronsLoop ders timestep dt N (t + 1) count iso_in' iso_out' acc_in' acc_out'

/-- Python `oscillator_isochrons`: sweep both rings backward in steps of
`period/N` for `int(time_range/timestep)` iterations (none when that
value is not positive, mirroring the empty Python `range`), then join the
reversed inside history with the outside history for every
`isochron_resolution`-th index.  `isochron_resolution = 0` raises a
`ValueError` in Python (`range` step zero) and is excluded by the
theorems. -/
def oscillator_isochrons (log : ℚ → ℚ) (ders : Ders)
    (local_iso_in local_iso_out : List State) (amplitude0 period floquet : ℚ)
    (isochron_resolution : ℕ) (amplitude_domain dt : ℚ) : List (List State) :=
  let N := local_iso_in.length - 1
  let isochrons_in0 := (List.range N).map (fun i => [local_iso_in.getD i []])
  let isochrons_out0 := (List.range N).map (fun i => [local_iso_out.getD i []])
  let time_range := log (amplitude_domain / amplitude0) / floquet
  let timestep := period / (N : ℚ)
  let p := isochronsLoop ders timestep dt N 1 (pyint (time_range / timestep)).toNat
    local_iso_in local_iso_out isochrons_in0 isochrons_out0
  let iso_len := (p.1.getD 0 []).length
  ((List.range N).filter (fun i => i % isochron_resolution = 0)).map
    (fun i =>
      ((List.range iso_len).map (fun j => (p.1.getD i []).getD (iso_len - 1 - j) []))
        ++ p.2.getD i [])

@[simp] theorem Res.bind_def {α β : Type} (e : Res α) (f : α → Res β) :
    e >>= f = Res.bind e f := rfl

@[simp] theorem Res.pure_def {α : Type} (a : α) : (pure a : Res α) = .ok a := rfl

theorem getD_map_range {α : Type} (f : ℕ → α) (N i : ℕ) (d : α) (h : i < N) :
    ((List.range N).map f).getD i d = f i := by
  rw [List.getD_eq_getD_get?, List.get?_map, List.get?_range h]
  rfl

theorem getLast?_append_singleton {α : Type} (l : List α) (x : α) :
    (l ++ [x]).getLast? = some x := by simp

theorem closed_head_eq_last {α : Type} (l : List α) (d : α) (h : l ≠ []) :
    (l ++ [l.getD 0 d]).head? = (l ++ [l.getD 0 d]).getLast? := by
  cases l with
  | nil => exact absurd rfl h
  | cons a t =>
    show some a = (a :: t ++ [(a :: t).getD 0 d]).getLast?
    rw [getLast?_append_singleton]
    rfl

theorem cycleSamples_length (ders : Ders) (T dt : ℚ) :
    ∀ (n : ℕ) (s : State), (cycleSamples ders T dt n s).length = n := by
  intro n
  induction n with
  | zero => intro s; rfl
  | succ n ih =>
    intro s
    show (s :: cycleSamples ders T dt n (integrate_period s ders T dt)).length = n + 1
    rw [List.length_cons, ih]

/-- Whatever run succeeds, `sample_limit_cycle` returns a recorded list
of `sampling` states closed by a copy of its first element. -/
theorem sample_limit_cycle_ok_shape (ders : Ders) (sampling : ℕ) (period : Option ℚ)
    (initial_state : Option State) (warmup_time thr dt : ℚ) (fuel : ℕ) (lc : List State)
    (h : sample_limit_cycle ders sampling period initial_state warmup_time thr dt fuel = .ok lc) :
    ∃ (T : ℚ) (s : State), lc =
      cycleSamples ders T dt sampling s ++ [(cycleSamples ders T dt sampling s).getD 0 []] := by
  unfold sample_limit_cycle at h
  simp only [Res.bind_def] at h
  cases period with
  | none =>
    rcases Res.bind_eq_ok.mp h with ⟨s1, h1, h⟩
    rcases Res.bind_eq_ok.mp h with ⟨t1, h2, h⟩
    rcases Res.bind_eq_ok.mp h with ⟨y, h3, h⟩
    rcases Res.bind_eq_ok.mp h with ⟨s2, h4, h⟩
    injection h with h
    exact ⟨_, _, h.symm⟩
  | some p =>
    rcases Res.bind_eq_ok.mp h with ⟨y, h1, h⟩
    rcases Res.bind_eq_ok.mp h with ⟨s2, h2, h⟩
    injection h with h
    exact ⟨_, _, h.symm⟩

theorem sample_limit_cycle_ok_length (ders : Ders) (sampling : ℕ) (period : Option ℚ)
    (initial_state : Option State) (warmup_time thr dt : ℚ) (fuel : ℕ) (lc : List State)
    (h : sample_limit_cycle ders sampling period initial_state warmup_time thr dt fuel = .ok lc) :
    lc.length = sampling + 1 := by
  rcases sample_limit_cycle_ok_shape ders sampling period initial_state warmup_time thr dt fuel
    lc h with ⟨T, s, hlc⟩
  rw [hlc, List.length_append, cycleSamples_length]
  rfl

theorem sample_limit_cycle_ok_closed (ders : Ders) (sampling : ℕ) (period : Option ℚ)
    (initial_state : Option State) (warmup_time thr dt : ℚ) (fuel : ℕ) (lc : List State)
    (hs : 1 ≤ sampling)
    (h : sample_limit_cycle ders sampling period initial_state warmup_time thr dt fuel = .ok lc) :
    lc.head? = lc.getLast? := by
  rcases sample_limit_cycle_ok_shape ders sampling period initial_state warmup_time thr dt fuel
    lc h with ⟨T, s, hlc⟩
  rw [hlc]
  apply closed_head_eq_last
  intro hnil
  have := cycleSamples_length ders T dt sampling s
  rw [hnil] at this
  simp at this
  omega

theorem isoLoop_succ (pi : ℚ) (sqrt exp : ℚ → ℚ) (ders : Ders) (sampling : ℕ)
    (period floquet : ℚ) (limitc : List State) (ampl0 thr dt : ℚ) (fuel : ℕ)
    (s count : ℕ) (state_sh : State) :
    isoLoop pi sqrt exp ders sampling period floquet limitc ampl0 thr dt fuel
        s (count + 1) state_sh = (do
      let state_sh1 := integrate_period state_sh ders (period / sampling) dt
      let factor := exp (floquet * period / sampling)
      let state_sh2 := combine ders.length (limitc.getD s []) state_sh1 factor
      let ph ← oscillator_phase pi ders state_sh2 period 5 thr dt fuel
      let phase_diff := 2 * pi * (s + 1 : ℕ) / sampling - ph
      let q ← fdiv phase_diff |phase_diff|
      let state_sh3 := integrate_period state_sh2 ders (phase_diff / (2 * pi) * period) (q * dt)
      let ampl ← oscillator_amplitude pi sqrt exp state_sh3 ders period floquet
        (limitc.getD 0 []) 5 thr dt fuel
      let q2 ← fdiv ampl0 ampl
      let state_sh4 := combine ders.length (limitc.getD s []) state_sh3 q2
      let rest ← isoLoop pi sqrt exp ders sampling period floquet limitc ampl0 thr dt fuel
        (s + 1) count state_sh4
      .ok (state_sh :: rest)) := rfl

theorem isoLoop_ok_length (pi : ℚ) (sqrt exp : ℚ → ℚ) (ders : Ders) (sampling : ℕ)
    (period floquet : ℚ) (limitc : List State) (ampl0 thr dt : ℚ) (fuel : ℕ) :
    ∀ (count s : ℕ) (state_sh : State) (l : List State),
      isoLoop pi sqrt exp ders sampling period floquet limitc ampl0 thr dt fuel
        s count state_sh = .ok l → l.length = count := by
  intro count
  induction count with
  | zero =>
    intro s state_sh l h
    injection h with h
    rw [← h]
    rfl
  | succ count ih =>
    intro s state_sh l h
    rw [isoLoop_succ] at h
    simp only [Res.bind_def] at h
    rcases Res.bind_eq_ok.mp h with ⟨ph, hph, h⟩
    rcases Res.bind_eq_ok.mp h with ⟨q, hq, h⟩
    rcases Res.bind_eq_ok.mp h with ⟨ampl, hampl, h⟩
    rcases Res.bind_eq_ok.mp h with ⟨q2, hq2, h⟩
    rcases Res.bind_eq_ok.mp h with ⟨rest, hrest, h⟩
    injection h with h
    rw [← h, List.length_cons, ih _ _ _ hrest]

/-- Whatever run succeeds, `sample_local_isostable` returns the recorded
list of its loop closed by a copy of its first element. -/
theorem sample_local_isostable_ok_shape (pi : ℚ) (sqrt exp : ℚ → ℚ) (ders : Ders)
    (sampling : ℕ) (period floquet sign shift : ℚ) (initial_state : Option State)
    (warmup_periods thr dt : ℚ) (fuel : ℕ) (iso : List State)
    (h : sample_local_isostable pi sqrt exp ders sampling period floquet sign shift
      initial_state warmup_periods thr dt fuel = .ok iso) :
    ∃ l : List State, l.length = sampling ∧ iso = l ++ [l.getD 0 []] := by
  unfold sample_local_isostable at h
  simp only [Res.bind_def] at h
  rcases Res.bind_eq_ok.mp h with ⟨limitc, hlc, h⟩
  rcases Res.bind_eq_ok.mp h with ⟨ph, hph, h⟩
  rcases Res.bind_eq_ok.mp h with ⟨q, hq, h⟩
  rcases Res.bind_eq_ok.mp h with ⟨ampl0, ha, h⟩
  rcases Res.bind_eq_ok.mp h with ⟨l, hl, h⟩
  injection h with h
  exact ⟨l, isoLoop_ok_length _ _ _ _ _ _ _ _ _ _ _ _ _ _ _ _ hl, h.symm⟩

theorem floquetLoop_succ (sqrt log : ℚ → ℚ) (ders : Ders) (period dt : ℚ)
    (lc_avg : State) (limitc : List State) (shift : ℚ) (i count : ℕ) (a : ℚ) (b : ℕ) :
    floquetLoop sqrt log ders period dt lc_avg limitc shift i (count + 1) a b = (do
      let m_out ← floquet_one sqrt log ders period dt lc_avg (limitc.getD i []) (1 + shift)
      let m_in ← floquet_one sqrt log ders period dt lc_avg (limitc.getD i []) (1 - shift)
      floquetLoop sqrt log ders period dt lc_avg limitc shift (i + 1) count
        (a + m_out + m_in) (b + 2)) := rfl

/-- When every measurement along the visited index range succeeds, the
measurement loop returns the accumulated sum of the measurement values
and a count of two per iteration; a failing measurement instead aborts
the loop with its error. -/
theorem floquetLoop_ok (sqrt log : ℚ → ℚ) (ders : Ders) (period dt : ℚ)
    (lc_avg : State) (limitc : List State) (shift : ℚ) (u v : ℕ → ℚ) :
    ∀ (count i : ℕ) (a : ℚ) (b : ℕ),
      (∀ j ∈ List.range' i count, floquet_one sqrt log ders period dt lc_avg
        (limitc.getD j []) (1 + shift) = .ok (u j)) →
      (∀ j ∈ List.range' i count, floquet_one sqrt log ders period dt lc_avg
        (limitc.getD j []) (1 - shift) = .ok (v j)) →
      floquetLoop sqrt log ders period dt lc_avg limitc shift i count a b =
        .ok (a + ((List.range' i count).map (fun j => u j + v j)).sum, b + 2 * count) := by
  intro count
  induction count with
  | zero =>
    intro i a b hu hv
    show Res.ok (a, b) = _
    simp
  | succ count ih =>
    intro i a b hu hv
    have hmem : i ∈ List.range' i (count + 1) := by
      rw [List.range'_succ]
      exact List.mem_cons_self _ _
    rw [floquetLoop_succ]
    simp only [Res.bind_def]
    rw [hu i hmem, Res.bind_ok, hv i hmem, Res.bind_ok]
    rw [ih (i + 1) (a + u i + v i) (b + 2)
      (fun j hj => hu j (by rw [List.range'_succ]; exact List.mem_cons_of_mem _ hj))
      (fun j hj => hv j (by rw [List.range'_succ]; exact List.mem_cons_of_mem _ hj))]
    rw [List.range'_succ, List.map_cons, List.sum_cons]
    simp only [Prod.mk.injEq, Res.ok.injEq]
    constructor
    · ring
    · ring

theorem foldl_steps_replicate (ders : Ders) (dt r : ℚ) :
    ∀ (n : ℕ) (s : State),
      (List.replicate n dt ++ [r]).foldl (fun s h => one_step_integrator s ders h) s =
        one_step_integrator ((fun s => one_step_integrator s ders dt)^[n] s) ders r := by
  intro n
  induction n with
  | zero => intro s; rfl
  | succ n ih =>
    intro s
    rw [List.replicate_succ, List.cons_append, List.foldl_cons, ih,
      Function.iterate_succ_apply]

/-- One iteration of the carried state of the shell loop
`(n, iso_in, iso_out, evolve_time)`. -/
def shellNext (log : ℚ → ℚ) (ders : Ders) (floquet dt : ℚ)
    (st : ℕ × List State × List State × ℚ) : ℕ × List State × List State × ℚ :=
  (st.1 + 1, evolveRing ders st.2.2.2 dt st.2.1,
   evolveRingUpTo ders st.2.2.2 dt st.2.1.length st.2.2.1,
   log (((st.1 : ℚ) + 1) / (st.1 : ℚ)) / floquet)

theorem isostablesLoop_succ (log : ℚ → ℚ) (ders : Ders) (floquet dt : ℚ)
    (n count : ℕ) (iso_in iso_out : List State) (T : ℚ) :
    isostablesLoop log ders floquet dt n (count + 1) iso_in iso_out T =
      evolveRing ders T dt iso_in ::
      evolveRingUpTo ders T dt iso_in.length iso_out ::
      isostablesLoop log ders floquet dt (n + 1) count (evolveRing ders T dt iso_in)
        (evolveRingUpTo ders T dt iso_in.length iso_out)
        (log (((n : ℚ) + 1) / (n : ℚ)) / floquet) := rfl

/-- The shell loop emits, in order, the inside ring then the outside
ring of every successive shell: entry `2k` (resp. `2k+1`) of the output
is the inside (resp. outside) component of the `k+1`-fold iterate of the
loop body. -/
theorem isostablesLoop_getD (log : ℚ → ℚ) (ders : Ders) (floquet dt : ℚ) :
    ∀ (count n : ℕ) (iso_in iso_out : List State) (T : ℚ) (k : ℕ), k < count →
      (isostablesLoop log ders floquet dt n count iso_in iso_out T).getD (2 * k) [] =
        ((shellNext log ders floquet dt)^[k + 1] (n, iso_in, iso_out, T)).2.1 ∧
      (isostablesLoop log ders floquet dt n count iso_in iso_out T).getD (2 * k + 1) [] =
        ((shellNext log ders floquet dt)^[k + 1] (n, iso_in, iso_out, T)).2.2.1 := by
  intro count
  induction count with
  | zero => intro n iso_in iso_out T k hk; omega
  | succ count ih =>
    intro n iso_in iso_out T k hk
    rw [isostablesLoop_succ]
    cases k with
    | zero =>
      constructor
      · rw [Function.iterate_one]
        rfl
      · rw [Function.iterate_one]
        rfl
    | succ k =>
      have e1 : 2 * (k + 1) = 2 * k + 1 + 1 := by omega
      have e2 : 2 * (k + 1) + 1 = 2 * k + 1 + 1 + 1 := by omega
      rw [e2, e1, List.getD_cons_succ, List.getD_cons_succ, List.getD_cons_succ,
        List.getD_cons_succ]
      have hit : ∀ m : ℕ,
          (shellNext log ders floquet dt)^[k + 1 + 1] (n, iso_in, iso_out, T) =
            (shellNext log ders floquet dt)^[k + 1]
              (shellNext log ders floquet dt (n, iso_in, iso_out, T)) := by
        intro m
        rw [Function.iterate_succ_apply]
      rw [hit 0]
      exact ih (n + 1) (evolveRing ders T dt iso_in)
        (evolveRingUpTo ders T dt iso_in.length iso_out)
        (log (((n : ℚ) + 1) / (n : ℚ)) / floquet) k (by omega)

theorem isostablesLoop_length (log : ℚ → ℚ) (ders : Ders) (floquet dt : ℚ) :
    ∀ (count n : ℕ) (iso_in iso_out : List State) (T : ℚ),
      (isostablesLoop log ders floquet dt n count iso_in iso_out T).length = 2 * count := by
  intro count
  induction count with
  | zero => intro n iso_in iso_out T; rfl
  | succ count ih =>
    intro n iso_in iso_out T
    rw [isostablesLoop_succ, List.length_cons, List.length_cons, ih]
    omega

theorem isochronsLoop_succ (ders : Ders) (timestep dt : ℚ) (N t count : ℕ)
    (iso_in iso_out : List State) (acc_in acc_out : List (List State)) :
    isochronsLoop ders timestep dt N t (count + 1) iso_in iso_out acc_in acc_out =
      isochronsLoop ders timestep dt N (t + 1) count
        (evolveRingUpTo ders timestep dt N iso_in)
        (evolveRingUpTo ders timestep dt N iso_out)
        ((List.range N).map (fun i =>
          acc_in.getD i [] ++ [(evolveRingUpTo ders timestep dt N iso_in).getD ((i + t) % N) []]))
        ((List.range N).map (fun i =>
          acc_out.getD i [] ++
            [(evolveRingUpTo ders timestep dt N iso_out).getD ((i + t) % N) []])) := rfl

/-- The backward sweep of `oscillator_isochrons` keeps `N` histories on
each side and appends exactly one point per history per iteration. -/
theorem isochronsLoop_spec (ders : Ders) (timestep dt : ℚ) (N : ℕ) :
    ∀ (count t : ℕ) (iso_in iso_out : List State) (acc_in acc_out : List (List State)) (m : ℕ),
      acc_in.length = N → acc_out.length = N →
      (∀ i, i < N → (acc_in.getD i []).length = m) →
      (∀ i, i < N → (acc_out.getD i []).length = m) →
      (isochronsLoop ders timestep dt N t count iso_in iso_out acc_in acc_out).1.length = N ∧
      (isochronsLoop ders timestep dt N t count iso_in iso_out acc_in acc_out).2.length = N ∧
      (∀ i, i < N →
        ((isochronsLoop ders timestep dt N t count iso_in iso_out acc_in acc_out).1.getD i
          []).length = m + count) ∧
      (∀ i, i < N →
        ((isochronsLoop ders timestep dt N t count iso_in iso_out acc_in acc_out).2.getD i
          []).length = m + count) := by
  intro count
  induction count with
  | zero =>
    intro t iso_in iso_out acc_in acc_out m h1 h2 h3 h4
    refine ⟨h1, h2, fun i hi => ?_, fun i hi => ?_⟩
    · have := h3 i hi
      show (acc_in.getD i []).length = m + 0
      omega
    · have := h4 i hi
      show (acc_out.getD i []).length = m + 0
      omega
  | succ count ih =>
    intro t iso_in iso_out acc_in acc_out m h1 h2 h3 h4
    rw [isochronsLoop_succ]
    have hlen : ∀ (l : List (List State)), ((List.range N).map
        (fun i => l.getD i [] ++ [(evolveRingUpTo ders timestep dt N iso_in).getD
          ((i + t) % N) []])).length = N := by
      intro l
      rw [List.length_map, List.length_range]
    rcases ih (t + 1)
      (evolveRingUpTo ders timestep dt N iso_in)
      (evolveRingUpTo ders timestep dt N iso_out)
      ((List.range N).map (fun i =>
        acc_in.getD i [] ++ [(evolveRingUpTo ders timestep dt N iso_in).getD ((i + t) % N) []]))
      ((List.range N).map (fun i =>
        acc_out.getD i [] ++ [(evolveRingUpTo ders timestep dt N iso_out).getD ((i + t) % N) []]))
      (m + 1)
      (by rw [List.length_map, List.length_range])
      (by rw [List.length_map, List.length_range])
      (by
        intro i hi
        rw [getD_map_range _ _ _ _ hi, List.length_append, h3 i hi]
        rfl)
      (by
        intro i hi
        rw [getD_map_range _ _ _ _ hi, List.length_append, h4 i hi]
        rfl)
      with ⟨g1, g2, g3, g4⟩
    refine ⟨g1, g2, fun i hi => ?_, fun i hi => ?_⟩
    · rw [g3 i hi]; omega
    · rw [g4 i hi]; omega

/-- The Python `range(0, N, res)` (for `res ≥ 1`) visits
`⌈N/res⌉ = (N + res - 1)/res` indices. -/
theorem range_filter_mod_length (res : ℕ) (hres : 1 ≤ res) :
    ∀ N : ℕ, ((List.range N).filter (fun i => i % res = 0)).length = (N + res - 1) / res := by
  intro N
  induction N with
  | zero =>
    have : (res - 1) / res = 0 := Nat.div_eq_of_lt (by omega)
    simpa using this.symm
  | succ N ih =>
    rw [List.range_succ, List.filter_append, List.length_append, ih]
    have hstep : (N + 1 + res - 1) / res = (N + res - 1) / res +
        if N % res = 0 then 1 else 0 := by
      have hrw : N + 1 + res - 1 = (N + res - 1) + 1 := by omega
      rw [hrw, Nat.succ_div]
      have hdvd : res ∣ N + res - 1 + 1 ↔ N % res = 0 := by
        have h1 : N + res - 1 + 1 = N + res := by omega
        rw [h1]
        constructor
        · intro hd
          have := (Nat.dvd_add_self_right).mp hd
          omega
        · intro hm
          exact (Nat.dvd_add_self_right).mpr (Nat.dvd_of_mod_eq_zero hm)
      by_cases hN : N % res = 0
      · rw [if_pos (hdvd.mpr hN), if_pos hN]
      · rw [if_neg (fun hd => hN (hdvd.mp hd)), if_neg hN]
    rw [hstep]
    by_cases hN : N % res = 0
    · simp [hN]
    · simp [hN]

/-- A minimal model of the Python heap of ring objects: each mutable
list-of-states (`local_iso_in`, `local_iso_out` and their `.copy()`s)
lives at a numeric address.  Inner state vectors are modelled as values
because the source never mutates a state list in place — ring entries
are only ever rebound to freshly built lists. -/
structure Heap where
  mem : List (List State)
deriving DecidableEq

/-- Dereference a ring address (a dangling address, which cannot occur
in the modelled runs, reads as the junk empty ring). -/
def Heap.read (h : Heap) (a : ℕ) : List State := h.mem.getD a []

/-- Overwrite the ring object at an address. -/
def Heap.write (h : Heap) (a : ℕ) (v : List State) : Heap := ⟨h.mem.set a v⟩

/-- Python `list.copy()`: allocate a fresh ring object, returning its address. -/
def Heap.alloc (h : Heap) (v : List State) : Heap × ℕ := (⟨h.mem ++ [v]⟩, h.mem.length)

theorem Heap.length_write (h : Heap) (a : ℕ) (v : List State) :
    (h.write a v).mem.length = h.mem.length := List.length_set h.mem a v

theorem Heap.read_write_ne (h : Heap) (a b : ℕ) (v : List State) (hab : b ≠ a) :
    (h.write b v).read a = h.read a := by
  unfold Heap.read Heap.write
  rw [List.getD_eq_getD_get?, List.getD_eq_getD_get?, List.get?_set_ne _ _ hab]

theorem Heap.read_alloc_lt (h : Heap) (v : List State) (a : ℕ) (ha : a < h.mem.length) :
    (h.alloc v).1.read a = h.read a := by
  unfold Heap.read Heap.alloc
  rw [List.getD_eq_getD_get?, List.getD_eq_getD_get?, List.get?_append ha]

/-- Python `iso_in[i] = v`: element assignment into the ring object at `b`. -/
def writeRingAt (h : Heap) (b i : ℕ) (v : State) : Heap := h.write b ((h.read b).set i v)

/-- The body of the shared inner loop
`iso_in[i] = integrate_period(iso_in[i], ders, -T, -dt);
 iso_out[i] = integrate_period(iso_out[i], ders, -T, -dt)`
of `oscillator_isostables` and `oscillator_isochrons`, acting on the
heap objects at `b_in` and `b_out`. -/
def isoShellHeapStep (ders : Ders) (T dt : ℚ) (b_in b_out : ℕ) (h : Heap) (i : ℕ) : Heap :=
  let h1 := writeRingAt h b_in i (integrate_period ((h.read b_in).getD i []) ders (-T) (-dt))
  writeRingAt h1 b_out i (integrate_period ((h1.read b_out).getD i []) ders (-T) (-dt))

/-- Heap-level shell loop of `oscillator_isostables`: per shell, evolve
every entry of both ring objects in place, then append value copies of
both rings (inside first) to the output. -/
def isostablesHeapLoop (log : ℚ → ℚ) (ders : Ders) (floquet dt : ℚ) (b_in b_out : ℕ) :
    ℕ → ℕ → ℚ → Heap → List (List State) → Heap × List (List State)
  | _, 0, _, h, isos => (h, isos)
  | n, count + 1, T, h, isos =>
    let len := (h.read b_in).length
    let h' := (List.range len).foldl (isoShellHeapStep ders T dt b_in b_out) h
    isostablesHeapLoop log ders floquet dt b_in b_out (n + 1) count
      (log (((n : ℚ) + 1) / (n : ℚ)) / floquet) h'
      (isos ++ [h'.read b_in, h'.read b_out])

/-- Heap-level `oscillator_isostables`: `.copy()` both input rings to
fresh addresses and run the shell loop on the copies — the input
objects at `a_in` and `a_out` are never written. -/
def oscillator_isostables_heap (log : ℚ → ℚ) (ders : Ders) (amplitude0 period floquet : ℚ)
    (number_of_isostables : ℕ) (amplitude_unit dt : ℚ) (h : Heap) (a_in a_out : ℕ) :
    Heap × List (List State) :=
  let p1 := h.alloc (h.read a_in)
  let p2 := p1.1.alloc (p1.1.read a_out)
  isostablesHeapLoop log ders floquet dt p1.2 p2.2 1 number_of_isostables
    (log (amplitude_unit / amplitude0) / floquet) p2.1 []

/-- Heap-level backward sweep of `oscillator_isochrons`: evolve the
first `N` entries of both ring objects in place, then append the
index-shifted points to the (freshly created, never input-aliased)
history lists. -/
def isochronsHeapLoop (ders : Ders) (timestep dt : ℚ) (N b_in b_out : ℕ) :
    ℕ → ℕ → Heap → List (List State) → List (List State) →
      Heap × List (List State) × List (List State)
  | _, 0, h, acc_in, acc_out => (h, acc_in, acc_out)
  | t, count + 1, h, acc_in, acc_out =>
    let h' := (List.range N).foldl (isoShellHeapStep ders timestep dt b_in b_out) h
    isochronsHeapLoop ders timestep dt N b_in b_out (t + 1) count h'
      ((List.range N).map (fun i => acc_in.getD i [] ++ [(h'.read b_in).getD ((i + t) % N) []]))
      ((List.range N).map (fun i => acc_out.getD i [] ++ [(h'.read b_out).getD ((i + t) % N) []]))

/-- Heap-level `oscillator_isochrons`: `.copy()` both input rings, sweep
the copies backward, and join the histories.  The input objects at
`a_in` and `a_out` are never written. -/
def oscillator_isochrons_heap (log : ℚ → ℚ) (ders : Ders) (amplitude0 period floquet : ℚ)
    (isochron_resolution : ℕ) (amplitude_domain dt : ℚ) (h : Heap) (a_in a_out : ℕ) :
    Heap × List (List State) :=
  let p1 := h.alloc (h.read a_in)
  let p2 := p1.1.alloc (p1.1.read a_out)
  let h2 := p2.1
  let N := (h2.read p1.2).length - 1
  let acc_in0 := (List.range N).map (fun i => [(h2.read p1.2).getD i []])
  let acc_out0 := (List.range N).map (fun i => [(h2.read p2.2).getD i []])
  let time_range := log (amplitude_domain / amplitude0) / floquet
  let timestep := period / (N : ℚ)
  let q := isochronsHeapLoop ders timestep dt N p1.2 p2.2 1
    (pyint (time_range / timestep)).toNat h2 acc_in0 acc_out0
  let iso_len := (q.2.1.getD 0 []).length
  (q.1, ((List.range N).filter (fun i => i % isochron_resolution = 0)).map
    (fun i =>
      ((List.range iso_len).map (fun j => (q.2.1.getD i []).getD (iso_len - 1 - j) []))
        ++ q.2.2.getD i []))

theorem isoShellHeapStep_frame (ders : Ders) (T dt : ℚ) (b_in b_out : ℕ) (h : Heap)
    (i a : ℕ) (hin : b_in ≠ a) (hout : b_out ≠ a) :
    (isoShellHeapStep ders T dt b_in b_out h i).read a = h.read a := by
  unfold isoShellHeapStep writeRingAt
  rw [Heap.read_write_ne _ _ _ _ hout, Heap.read_write_ne _ _ _ _ hin]

theorem isoShellHeapStep_length (ders : Ders) (T dt : ℚ) (b_in b_out : ℕ) (h : Heap)
    (i : ℕ) :
    (isoShellHeapStep ders T dt b_in b_out h i).mem.length = h.mem.length := by
  unfold isoShellHeapStep writeRingAt
  rw [Heap.length_write, Heap.length_write]

theorem foldl_shell_frame (ders : Ders) (T dt : ℚ) (b_in b_out a : ℕ)
    (hin : b_in ≠ a) (hout : b_out ≠ a) :
    ∀ (l : List ℕ) (h : Heap),
      (l.foldl (isoShellHeapStep ders T dt b_in b_out) h).read a = h.read a := by
  intro l
  induction l with
  | nil => intro h; rfl
  | cons x t ih =>
    intro h
    rw [List.foldl_cons, ih, isoShellHeapStep_frame ders T dt b_in b_out h x a hin hout]

theorem foldl_shell_length (ders : Ders) (T dt : ℚ) (b_in b_out : ℕ) :
    ∀ (l : List ℕ) (h : Heap),
      (l.foldl (isoShellHeapStep ders T dt b_in b_out) h).mem.length = h.mem.length := by
  intro l
  induction l with
  | nil => intro h; rfl
  | cons x t ih =>
    intro h
    rw [List.foldl_cons, ih, isoShellHeapStep_length]

theorem isostablesHeapLoop_frame (log : ℚ → ℚ) (ders : Ders) (floquet dt : ℚ)
    (b_in b_out a : ℕ) (hin : b_in ≠ a) (hout : b_out ≠ a) :
    ∀ (count n : ℕ) (T : ℚ) (h : Heap) (isos : List (List State)),
      (isostablesHeapLoop log ders floquet dt b_in b_out n count T h isos).1.read a =
        h.read a ∧
      (isostablesHeapLoop log ders floquet dt b_in b_out n count T h isos).1.mem.length =
        h.mem.length := by
  intro count
  induction count with
  | zero => intro n T h isos; exact ⟨rfl, rfl⟩
  | succ count ih =>
    intro n T h isos
    have hstep : isostablesHeapLoop log ders floquet dt b_in b_out n (count + 1) T h isos =
        isostablesHeapLoop log ders floquet dt b_in b_out (n + 1) count
          (log (((n : ℚ) + 1) / (n : ℚ)) / floquet)
          ((List.range (h.read b_in).length).foldl (isoShellHeapStep ders T dt b_in b_out) h)
          (isos ++
            [((List.range (h.read b_in).length).foldl (isoShellHeapStep ders T dt b_in b_out)
                h).read b_in,
             ((List.range (h.read b_in).length).foldl (isoShellHeapStep ders T dt b_in b_out)
                h).read b_out]) := rfl
    rw [hstep]
    rcases ih (n + 1) (log (((n : ℚ) + 1) / (n : ℚ)) / floquet)
      ((List.range (h.read b_in).length).foldl (isoShellHeapStep ders T dt b_in b_out) h)
      (isos ++ _) with ⟨hr, hl⟩
    constructor
    · rw [hr, foldl_shell_frame ders T dt b_in b_out a hin hout]
    · rw [hl, foldl_shell_length]

theorem isochronsHeapLoop_frame (ders : Ders) (timestep dt : ℚ) (N b_in b_out a : ℕ)
    (hin : b_in ≠ a) (hout : b_out ≠ a) :
    ∀ (count t : ℕ) (h : Heap) (acc_in acc_out : List (List State)),
      (isochronsHeapLoop ders timestep dt N b_in b_out t count h acc_in acc_out).1.read a =
        h.read a ∧
      (isochronsHeapLoop ders timestep dt N b_in b_out t count h acc_in acc_out).1.mem.length =
        h.mem.length := by
  intro count
  induction count with
  | zero => intro t h acc_in acc_out; exact ⟨rfl, rfl⟩
  | succ count ih =>
    intro t h acc_in acc_out
    have hstep : isochronsHeapLoop ders timestep dt N b_in b_out t (count + 1) h acc_in acc_out =
        isochronsHeapLoop ders timestep dt N b_in b_out (t + 1) count
          ((List.range N).foldl (isoShellHeapStep ders timestep dt b_in b_out) h)
          ((List.range N).map (fun i => acc_in.getD i [] ++
            [(((List.range N).foldl (isoShellHeapStep ders timestep dt b_in b_out) h).read
              b_in).getD ((i + t) % N) []]))
          ((List.range N).map (fun i => acc_out.getD i [] ++
            [(((List.range N).foldl (isoShellHeapStep ders timestep dt b_in b_out) h).read
              b_out).getD ((i + t) % N) []])) := rfl
    rw [hstep]
    rcases ih (t + 1)
      ((List.range N).foldl (isoShellHeapStep ders timestep dt b_in b_out) h) _ _
      with ⟨hr, hl⟩
    constructor
    · rw [hr, foldl_shell_frame ders timestep dt b_in b_out a hin hout]
    · rw [hl, foldl_shell_length]

/-- The function `oscillator_isostables_heap` leaves every previously allocated ring
object untouched and only grows the heap. -/
theorem oscillator_isostables_heap_frame (log : ℚ → ℚ) (ders : Ders)
    (amplitude0 period floquet : ℚ) (number_of_isostables : ℕ) (amplitude_unit dt : ℚ)
    (h : Heap) (a_in a_out a : ℕ) (ha : a < h.mem.length) :
    (oscillator_isostables_heap log ders amplitude0 period floquet number_of_isostables
      amplitude_unit dt h a_in a_out).1.read a = h.read a ∧
    (oscillator_isostables_heap log ders amplitude0 period floquet number_of_isostables
      amplitude_unit dt h a_in a_out).1.mem.length = h.mem.length + 2 := by
  unfold oscillator_isostables_heap
  rcases isostablesHeapLoop_frame log ders floquet dt h.mem.length (h.mem.length + 1)
    a (by omega) (by omega) number_of_isostables 1
    (log (amplitude_unit / amplitude0) / floquet)
    ((h.alloc (h.read a_in)).1.alloc ((h.alloc (h.read a_in)).1.read a_out)).1 []
    with ⟨hr, hl⟩
  have halloc2 : ((h.alloc (h.read a_in)).1.alloc
      ((h.alloc (h.read a_in)).1.read a_out)).2 = h.mem.length + 1 := by
    show (h.alloc (h.read a_in)).1.mem.length = h.mem.length + 1
    show (h.mem ++ [h.read a_in]).length = h.mem.length + 1
    rw [List.length_append]
    rfl
  constructor
  · show (isostablesHeapLoop log ders floquet dt (h.alloc (h.read a_in)).2 _ 1
      number_of_isostables _ _ []).1.read a = h.read a
    rw [show (h.alloc (h.read a_in)).2 = h.mem.length from rfl, halloc2, hr]
    rw [Heap.read_alloc_lt _ _ a (by
      show a < (h.mem ++ [h.read a_in]).length
      rw [List.length_append]
      omega)]
    rw [Heap.read_alloc_lt _ _ a ha]
  · show (isostablesHeapLoop log ders floquet dt (h.alloc (h.read a_in)).2 _ 1
      number_of_isostables _ _ []).1.mem.length = h.mem.length + 2
    rw [show (h.alloc (h.read a_in)).2 = h.mem.length from rfl, halloc2, hl]
    show ((h.mem ++ [h.read a_in]) ++ [_]).length = h.mem.length + 2
    rw [List.length_append, List.length_append]
    rfl

/-- The function `oscillator_isochrons_heap` likewise leaves every previously
allocated ring object untouched. -/
theorem oscillator_isochrons_heap_frame (log : ℚ → ℚ) (ders : Ders)
    (amplitude0 period floquet : ℚ) (isochron_resolution : ℕ) (amplitude_domain dt : ℚ)
    (h : Heap) (a_in a_out a : ℕ) (ha : a < h.mem.length) :
    (oscillator_isochrons_heap log ders amplitude0 period floquet isochron_resolution
      amplitude_domain dt h a_in a_out).1.read a = h.read a := by
  unfold oscillator_isochrons_heap
  have halloc2 : ((h.alloc (h.read a_in)).1.alloc
      ((h.alloc (h.read a_in)).1.read a_out)).2 = h.mem.length + 1 := by
    show (h.alloc (h.read a_in)).1.mem.length = h.mem.length + 1
    show (h.mem ++ [h.read a_in]).length = h.mem.length + 1
    rw [List.length_append]
    rfl
  rcases isochronsHeapLoop_frame ders
    (period / (((((h.alloc (h.read a_in)).1.alloc
      ((h.alloc (h.read a_in)).1.read a_out)).1.read (h.alloc (h.read a_in)).2).length - 1 : ℕ) : ℚ))
    dt
    ((((h.alloc (h.read a_in)).1.alloc
      ((h.alloc (h.read a_in)).1.read a_out)).1.read (h.alloc (h.read a_in)).2).length - 1)
    (h.alloc (h.read a_in)).2
    ((h.alloc (h.read a_in)).1.alloc ((h.alloc (h.read a_in)).1.read a_out)).2
    a (by show h.mem.length ≠ a; omega) (by rw [halloc2]; omega)
    (pyint ((log (amplitude_domain / amplitude0) / floquet) /
      (period / (((((h.alloc (h.read a_in)).1.alloc
        ((h.alloc (h.read a_in)).1.read a_out)).1.read (h.alloc (h.read a_in)).2).length
          - 1 : ℕ) : ℚ)))).toNat
    1
    ((h.alloc (h.read a_in)).1.alloc ((h.alloc (h.read a_in)).1.read a_out)).1
    _ _ with ⟨hr, hl⟩
  refine Eq.trans hr ?_
  rw [Heap.read_alloc_lt _ _ a (by
    show a < (h.mem ++ [h.read a_in]).length
    rw [List.length_append]
    omega)]
  rw [Heap.read_alloc_lt _ _ a ha]

/-- The step sizes `integrate_period` actually performs:
`floor(period/dt)` steps of `dt` when that floor is nonnegative (Python
`range` of a negative count is empty), then the single remainder step. -/
def integrate_period_steps (period dt : ℚ) : List ℚ :=
  List.replicate (⌊period / dt⌋).toNat dt ++ [period - ⌊period / dt⌋ * dt]

/-- Concrete 1-D test field `x' = 1` below `x = 1/2` and `x' = -7`
above, whose RK4 map with `dt = 1` recrosses any threshold near `-1/8`
repeatedly — used to witness terminating runs. -/
def vf1 : Ders := [fun s => if x0 s < 1 / 2 then 1 else -7]

/-- Concrete 1-D test field whose coordinate-0 derivative vanishes at
the detected crossing state, triggering the unguarded Hénon division. -/
def ders9 : Ders := [fun s => if x0 s < 0 then 1 else 0]

/-- Concrete 1-D test field `x' = 1` below `x = 1` and `x' = 2` above,
giving base-point-dependent contraction measurements. -/
def dersC1 : Ders := [fun s => if x0 s < 1 then 1 else 2]

/-- Constant unit vector field: pure translation `x' = 1`. -/
def ders1 : Ders := [fun _ => (1 : ℚ)]

/-- Zero vector field: every state is a fixed point of the flow. -/
def ders0 : Ders := [fun _ => (0 : ℚ)]

/-- Identity stand-in for the parametric `sqrt`/`log` slots in concrete
runs (the structural claims do not depend on which function is used). -/
def idq : ℚ → ℚ := fun q => q

/-- Constant stand-in for the parametric `exp` slot in concrete runs. -/
def exp2 : ℚ → ℚ := fun _ => 2

/-- C2, amended: the crossing-detection loop in `integrate_up_to_thr`
and `time_up_to_thr` stops searching exactly when the previous
coordinate-0 value is strictly below the threshold and the current
value is strictly above it (the source tests `xh < thr`, not
`xh ≤ thr`): the loop returns precisely the state one step past the
first such strict crossing, the loop of `time_up_to_thr` additionally
returning the elapsed time `(k+1)·dt`. -/
theorem C2_stop_condition (ders : Ders) (thr dt : ℚ) (fuel : ℕ) (s t : State) (τ : ℚ) :
    (upToThrLoop ders thr dt fuel (x0 s) s = .ok t ↔
      ∃ k, k + 2 ≤ fuel ∧ crossStep ders thr dt s k ∧
        (∀ j < k, ¬ crossStep ders thr dt s j) ∧ t = traj ders dt s (k + 1)) ∧
    (timeLoop ders thr dt fuel (x0 s) s 0 = .ok (t, τ) ↔
      ∃ k, k + 2 ≤ fuel ∧ crossStep ders thr dt s k ∧
        (∀ j < k, ¬ crossStep ders thr dt s j) ∧ t = traj ders dt s (k + 1) ∧
        τ = (k + 1 : ℕ) * dt) :=
  ⟨upToThrLoop_ok_iff ders thr dt fuel s t, timeLoop_ok_iff ders thr dt fuel s t τ⟩

unseal Rat.add Rat.mul Rat.sub Rat.inv in
/-- C2, witness: on the concrete field `vf1` from `[-3/4]` the loop
stops at the strict crossing `-3/4 < -1/8 < 1/4` after one step. -/
theorem C2_stop_condition_witness :
    ∃ k, k + 2 ≤ 10 ∧ crossStep vf1 (-(1/8)) 1 [-(3/4)] k ∧
      (∀ j < k, ¬ crossStep vf1 (-(1/8)) 1 [-(3/4)] j) ∧
      traj vf1 1 [-(3/4)] 1 = traj vf1 1 [-(3/4)] (k + 1) :=
  (C2_stop_condition vf1 (-(1/8)) 1 10 [-(3/4)] (traj vf1 1 [-(3/4)] 1) 0).1.mp (by decide)

unseal Rat.add Rat.mul Rat.sub Rat.inv in
/-- C2, counterexample: with the unit field from `[-1]` and `thr = 0`,
the trajectory `-1, 0, 1, 2, …` contains a step whose previous value
equals the threshold exactly and whose current value exceeds it
(`0 ≤ 0 < 1`), which the claim says counts as an upward crossing and
ends the loop; the loop of the source, whose test is strict, is still
searching after 100 fuel. -/
theorem C2_counterexample :
    x0 (traj ders1 1 [-1] 1) ≤ 0 ∧ 0 < x0 (traj ders1 1 [-1] 2) ∧
    upToThrLoop ders1 0 1 100 (x0 [-1]) [-1] = .fuelOut := by decide

/-- C3: for every starting state whose RK4 trajectory eventually steps
from strictly below the threshold to strictly above it, the crossing
loops of `integrate_up_to_thr` and `time_up_to_thr` terminate (and,
whenever the Hénon divisor at the detected state is nonzero, both
functions return values); when no such step ever occurs, both functions
run out of any amount of fuel — the existence of a crossing is a
precondition, not a runtime check. -/
theorem C3_termination (ders : Ders) (thr dt : ℚ) (s : State) :
    ((∃ k, crossStep ders thr dt s k) →
      ∃ fuel t τ, upToThrLoop ders thr dt fuel (x0 s) s = .ok t ∧
        timeLoop ders thr dt fuel (x0 s) s 0 = .ok (t, τ) ∧
        (der ders 0 t ≠ 0 →
          (∃ u, integrate_up_to_thr s ders thr dt fuel = .ok u) ∧
          (∃ r, time_up_to_thr s ders thr dt fuel = .ok r))) ∧
    ((¬ ∃ k, crossStep ders thr dt s k) →
      ∀ fuel, integrate_up_to_thr s ders thr dt fuel = .fuelOut ∧
        time_up_to_thr s ders thr dt fuel = .fuelOut) := by
  constructor
  · intro hex
    have hk0 := Nat.find_spec hex
    have hmin : ∀ j < Nat.find hex, ¬ crossStep ders thr dt s j :=
      fun j hj => Nat.find_min hex hj
    refine ⟨Nat.find hex + 2, traj ders dt s (Nat.find hex + 1),
      ((Nat.find hex + 1 : ℕ) : ℚ) * dt, ?_, ?_, ?_⟩
    · exact (upToThrLoop_ok_iff ders thr dt (Nat.find hex + 2) s _).mpr
        ⟨Nat.find hex, le_refl _, hk0, hmin, rfl⟩
    · exact (timeLoop_ok_iff ders thr dt (Nat.find hex + 2) s _ _).mpr
        ⟨Nat.find hex, le_refl _, hk0, hmin, rfl, rfl⟩
    · intro hder
      constructor
      · refine ⟨one_step_integrator (traj ders dt s (Nat.find hex + 1)) ders
          (-(1 / der ders 0 (traj ders dt s (Nat.find hex + 1)) *
            (x0 (traj ders dt s (Nat.find hex + 1)) - thr))), ?_⟩
        unfold integrate_up_to_thr
        rw [(upToThrLoop_ok_iff ders thr dt (Nat.find hex + 2) s _).mpr
          ⟨Nat.find hex, le_refl _, hk0, hmin, rfl⟩]
        rw [Res.bind_ok]
        unfold fdiv
        rw [if_neg hder, Res.bind_ok]
      · refine ⟨((Nat.find hex + 1 : ℕ) : ℚ) * dt -
          1 / der ders 0 (traj ders dt s (Nat.find hex + 1)) *
            (x0 (traj ders dt s (Nat.find hex + 1)) - thr), ?_⟩
        unfold time_up_to_thr
        rw [(timeLoop_ok_iff ders thr dt (Nat.find hex + 2) s _ _).mpr
          ⟨Nat.find hex, le_refl _, hk0, hmin, rfl, rfl⟩]
        rw [Res.bind_ok]
        unfold fdiv
        rw [if_neg hder, Res.bind_ok]
  · intro hnone fuel
    have hloop : upToThrLoop ders thr dt fuel (x0 s) s = .fuelOut := by
      cases hcase : upToThrLoop ders thr dt fuel (x0 s) s with
      | ok t =>
        rcases (upToThrLoop_ok_iff ders thr dt fuel s t).mp hcase with ⟨k, _, hc, _⟩
        exact absurd ⟨k, hc⟩ hnone
      | divZero => exact absurd hcase (upToThrLoop_ne_divZero ders thr dt fuel (x0 s) s)
      | fuelOut => rfl
    have htloop : timeLoop ders thr dt fuel (x0 s) s 0 = .fuelOut := by
      cases hcase : timeLoop ders thr dt fuel (x0 s) s 0 with
      | ok p =>
        rcases (timeLoop_ok_iff ders thr dt fuel s p.1 p.2).mp (by rw [← hcase]) with
          ⟨k, _, hc, _⟩
        exact absurd ⟨k, hc⟩ hnone
      | divZero => exact absurd hcase (timeLoop_ne_divZero ders thr dt fuel (x0 s) s 0)
      | fuelOut => rfl
    constructor
    · unfold integrate_up_to_thr
      rw [hloop, Res.bind_fuelOut]
    · unfold time_up_to_thr
      rw [htloop, Res.bind_fuelOut]

unseal Rat.add Rat.mul Rat.sub Rat.inv in
/-- C3, witness: the field `vf1` crosses `thr = -1/8` from `[-3/4]` at
the very first step, and both routines indeed return values there. -/
theorem C3_termination_witness :
    ∃ fuel t τ, upToThrLoop vf1 (-(1/8)) 1 fuel (x0 [-(3/4)]) [-(3/4)] = .ok t ∧
      timeLoop vf1 (-(1/8)) 1 fuel (x0 [-(3/4)]) [-(3/4)] 0 = .ok (t, τ) ∧
      (der vf1 0 t ≠ 0 →
        (∃ u, integrate_up_to_thr [-(3/4)] vf1 (-(1/8)) 1 fuel = .ok u) ∧
        (∃ r, time_up_to_thr [-(3/4)] vf1 (-(1/8)) 1 fuel = .ok r)) :=
  (C3_termination vf1 (-(1/8)) 1 [-(3/4)]).1 ⟨0, by decide⟩

/-- C7, amended: `integrate_period` folds one RK4 step per entry of
`integrate_period_steps`, and whenever `duration` and `dt` point the
same way (`duration/dt ≥ 0`) those entries are `floor(duration/dt)`
steps of size `dt` plus one final remainder step, summing exactly to
`duration`; when the signs disagree, the empty Python `range` drops the
`dt`-steps and the total no longer equals the duration (see the
counterexample). -/
theorem C7_step_structure (state : State) (ders : Ders) (period dt : ℚ) :
    integrate_period state ders period dt =
      (integrate_period_steps period dt).foldl (fun s h => one_step_integrator s ders h) state ∧
    (0 ≤ period / dt →
      (integrate_period_steps period dt).sum = period ∧
      (integrate_period_steps period dt).length = (⌊period / dt⌋).toNat + 1 ∧
      ((⌊period / dt⌋).toNat : ℤ) = ⌊period / dt⌋) := by
  constructor
  · rw [integrate_period_steps, foldl_steps_replicate]
    rfl
  · intro hpos
    have hfl : 0 ≤ ⌊period / dt⌋ := Int.floor_nonneg.mpr hpos
    have hcast : ((⌊period / dt⌋).toNat : ℤ) = ⌊period / dt⌋ := Int.toNat_of_nonneg hfl
    refine ⟨?_, ?_, hcast⟩
    · rw [integrate_period_steps, List.sum_append, List.sum_replicate, List.sum_cons,
        List.sum_nil]
      simp only [nsmul_eq_mul]
      have hq : (((⌊period / dt⌋).toNat : ℕ) : ℚ) = ((⌊period / dt⌋ : ℤ) : ℚ) := by
        have h2 := congrArg (fun z : ℤ => (z : ℚ)) hcast
        simp only [Int.cast_natCast] at h2
        exact h2
      rw [hq]
      ring
    · rw [integrate_period_steps, List.length_append, List.length_replicate]
      rfl

unseal Rat.add Rat.mul Rat.sub Rat.inv in
/-- C7, witness: for `duration = 3/2`, `dt = 1` the steps are one unit
step and a half remainder step, summing to the duration. -/
theorem C7_step_structure_witness :
    (0 ≤ (3/2 : ℚ) / 1) ∧
    ((integrate_period_steps (3/2) 1).sum = 3/2 ∧
      (integrate_period_steps (3/2) 1).length = (⌊(3/2 : ℚ) / 1⌋).toNat + 1 ∧
      ((⌊(3/2 : ℚ) / 1⌋).toNat : ℤ) = ⌊(3/2 : ℚ) / 1⌋) :=
  ⟨by decide, (C7_step_structure [0] ders1 (3/2) 1).2 (by decide)⟩

unseal Rat.add Rat.mul Rat.sub Rat.inv in
/-- C7, counterexample: with `duration = 1` and `dt = -1` (opposite
signs) the floor is `-1`, Python performs zero `dt`-steps plus a single
zero-size remainder step, the step sizes sum to `0 ≠ 1`, and the state
under the unit field does not advance — refuting the claim that the
sizes sum exactly to the duration for `dt` of either sign. -/
theorem C7_counterexample :
    ⌊(1 : ℚ) / (-1)⌋ = -1 ∧
    (integrate_period_steps 1 (-1)).length = 1 ∧
    (integrate_period_steps 1 (-1)).sum = 0 ∧
    (0 : ℚ) ≠ 1 ∧
    integrate_period [0] ders1 1 (-1) = [0] := by decide

unseal Rat.add Rat.mul Rat.sub Rat.inv in
/-- C9: `sample_local_isostable` is not total — on the field `ders9`,
whose coordinate-0 derivative vanishes at the detected crossing state
`[1/4]`, the unguarded Hénon division `1.0/ders[0](state)` inside
`integrate_up_to_thr` (reached through the initial
`sample_limit_cycle`) raises `ZeroDivisionError` instead of returning a
value; the divisions by `abs(phase)` and `abs(phase_diff)` are equally
unguarded (`fdiv` in this embedding). -/
theorem C9_division_by_zero :
    sample_local_isostable 3 idq exp2 ders9 2 1 1 1 (1/2) (some [-(1/4)]) 0 0 1 100 =
      .divZero := by decide

/-- C10: the crossing loops initialise the previous value to the
own coordinate 0 of the state, so the first condition check compares the
head coordinate with itself and never fires — at least one RK4 step is
always taken, and any returned crossing state is `traj k` for some
`k ≥ 1` (with elapsed time `k·dt` in the timed loop): a state already
lying at an upward crossing is never returned immediately. -/
theorem C10_at_least_one_step (ders : Ders) (thr dt : ℚ) (s : State) (fuel : ℕ)
    (t : State) (τ : ℚ) :
    (upToThrLoop ders thr dt (fuel + 1) (x0 s) s =
      upToThrLoop ders thr dt fuel (x0 s) (stepF ders dt s)) ∧
    (timeLoop ders thr dt (fuel + 1) (x0 s) s 0 =
      timeLoop ders thr dt fuel (x0 s) (stepF ders dt s) (0 + dt)) ∧
    (upToThrLoop ders thr dt fuel (x0 s) s = .ok t →
      ∃ k, 1 ≤ k ∧ t = traj ders dt s k) ∧
    (timeLoop ders thr dt fuel (x0 s) s 0 = .ok (t, τ) →
      ∃ k, 1 ≤ k ∧ t = traj ders dt s k ∧ τ = (k : ℕ) * dt) := by
  refine ⟨upToThrLoop_entry ders thr dt s fuel, timeLoop_entry ders thr dt s 0 fuel,
    ?_, ?_⟩
  · intro h
    rcases (upToThrLoop_ok_iff ders thr dt fuel s t).mp h with ⟨k, _, _, _, ht⟩
    exact ⟨k + 1, by omega, ht⟩
  · intro h
    rcases (timeLoop_ok_iff ders thr dt fuel s t τ).mp h with ⟨k, _, _, _, ht, hτ⟩
    exact ⟨k + 1, by omega, ht, by rw [hτ]⟩

unseal Rat.add Rat.mul Rat.sub Rat.inv in
/-- C10, witness: on `vf1` from `[-3/4]` the loop returns after exactly
one step, so the crossing state is `traj 1` and the elapsed time is
`1·dt`. -/
theorem C10_at_least_one_step_witness :
    ∃ k, 1 ≤ k ∧ traj vf1 1 [-(3/4)] 1 = traj vf1 1 [-(3/4)] k ∧ ((1 : ℚ)) = (k : ℕ) * 1 :=
  (C10_at_least_one_step vf1 (-(1/8)) 1 [-(3/4)] 10 (traj vf1 1 [-(3/4)] 1) 1).2.2.2
    (by decide)

/-- C1, amended: whenever the limit-cycle sampling succeeds and every
one of the `2 × (sampling + 1)` contraction-rate measurements — one
outward (`×(1+shift)`) and one inward (`×(1-shift)`) measurement per
entry of the `sampling + 1`-element closed sample list (its duplicated
endpoint included), relative to the coordinate-wise centroid of that
list — completes without a division error (each measurement
`log(d1/d2)/period` raises `ZeroDivisionError` in Python when `d2 = 0`
or `period = 0`), `oscillator_floquet` returns the arithmetic mean of
those `2 × (sampling + 1)` measurement values; a failing measurement
instead aborts the run.  The claimed count `2 × n` is off by one pair
(see the counterexample). -/
theorem C1_floquet_mean (sqrt log : ℚ → ℚ) (ders : Ders) (period : ℚ)
    (initial_state : Option State) (warmup_time shift : ℚ) (sampling : ℕ)
    (thr dt : ℚ) (fuel : ℕ) (lc : List State) (u v : ℕ → ℚ)
    (h : sample_limit_cycle ders sampling (some period) initial_state warmup_time thr dt
      fuel = .ok lc)
    (hu : ∀ i, i < sampling + 1 →
      floquet_one sqrt log ders period dt (list_avg ders.length lc) (lc.getD i [])
        (1 + shift) = .ok (u i))
    (hv : ∀ i, i < sampling + 1 →
      floquet_one sqrt log ders period dt (list_avg ders.length lc) (lc.getD i [])
        (1 - shift) = .ok (v i)) :
    oscillator_floquet sqrt log ders period initial_state warmup_time shift sampling
        thr dt fuel =
      .ok ((((List.range (sampling + 1)).map (fun i => u i + v i)).sum) /
        ((2 * (sampling + 1) : ℕ) : ℚ)) := by
  have hlen := sample_limit_cycle_ok_length ders sampling (some period) initial_state
    warmup_time thr dt fuel lc h
  unfold oscillator_floquet
  simp only [Res.bind_def]
  rw [h, Res.bind_ok, hlen]
  rw [floquetLoop_ok sqrt log ders period dt (list_avg ders.length lc) lc shift u v
    (sampling + 1) 0 0 0
    (fun j hj => hu j (by
      have := List.mem_range'_1.mp hj
      omega))
    (fun j hj => hv j (by
      have := List.mem_range'_1.mp hj
      omega))]
  rw [Res.bind_ok]
  simp only [zero_add, ← List.range_eq_range']

unseal Rat.add Rat.mul Rat.sub Rat.inv in
/-- C1, witness: a fully concrete run of `oscillator_floquet` on the
two-slope field `dersC1`, with all six measurements succeeding and the
result matching the `2 × (sampling + 1)`-measurement mean. -/
theorem C1_floquet_mean_witness :
    oscillator_floquet idq idq dersC1 2 (some [-(5/4)]) 0 (1/3) 2 0 1 100 =
      .ok ((((List.range (2 + 1)).map (fun i =>
        (floquet_one idq idq dersC1 2 1
          (list_avg dersC1.length
            ((sample_limit_cycle dersC1 2 (some 2) (some [-(5/4)]) 0 0 1 100).getD []))
          (((sample_limit_cycle dersC1 2 (some 2) (some [-(5/4)]) 0 0 1 100).getD
            []).getD i []) (1 + 1/3)).getD 0 +
        (floquet_one idq idq dersC1 2 1
          (list_avg dersC1.length
            ((sample_limit_cycle dersC1 2 (some 2) (some [-(5/4)]) 0 0 1 100).getD []))
          (((sample_limit_cycle dersC1 2 (some 2) (some [-(5/4)]) 0 0 1 100).getD
            []).getD i []) (1 - 1/3)).getD 0)).sum) /
        ((2 * (2 + 1) : ℕ) : ℚ)) :=
  C1_floquet_mean idq idq dersC1 2 (some [-(5/4)]) 0 (1/3) 2 0 1 100
    ((sample_limit_cycle dersC1 2 (some 2) (some [-(5/4)]) 0 0 1 100).getD [])
    (fun i => (floquet_one idq idq dersC1 2 1
      (list_avg dersC1.length
        ((sample_limit_cycle dersC1 2 (some 2) (some [-(5/4)]) 0 0 1 100).getD []))
      (((sample_limit_cycle dersC1 2 (some 2) (some [-(5/4)]) 0 0 1 100).getD
        []).getD i []) (1 + 1/3)).getD 0)
    (fun i => (floquet_one idq idq dersC1 2 1
      (list_avg dersC1.length
        ((sample_limit_cycle dersC1 2 (some 2) (some [-(5/4)]) 0 0 1 100).getD []))
      (((sample_limit_cycle dersC1 2 (some 2) (some [-(5/4)]) 0 0 1 100).getD
        []).getD i []) (1 - 1/3)).getD 0)
    (by decide) (by decide) (by decide)

unseal Rat.add Rat.mul Rat.sub Rat.inv in
/-- C1, counterexample: on the two-slope field `dersC1` the mean of the
source over `2 × (sampling + 1)` measurements differs from the claimed
mean over `2 × sampling` measurements (both runs succeed), because the
closed sample list double-counts its duplicated endpoint. -/
theorem C1_counterexample :
    oscillator_floquet idq idq dersC1 2 (some [-(5/4)]) 0 (1/2) 2 0 1 100 ≠
      oscillator_floquet_claimed idq idq dersC1 2 (some [-(5/4)]) 0 (1/2) 2 0 1 100 ∧
    (oscillator_floquet idq idq dersC1 2 (some [-(5/4)]) 0 (1/2) 2 0 1 100).isOk = true ∧
    (oscillator_floquet_claimed idq idq dersC1 2 (some [-(5/4)]) 0 (1/2) 2 0 1
      100).isOk = true := by decide

/-- C4, amended: whenever the time measurement after the warmup
integration succeeds with value `t`, `oscillator_phase` returns exactly
`2π(1 - t/period)`; that value lies in `[0, 2π)` precisely when
`0 < t ≤ period`, and equals zero precisely when `t = period` — the
range guarantee of the claim therefore holds only for measured times
within one period (see the counterexample for a state whose measured
time exceeds the supplied period). -/
theorem C4_phase_formula (pi : ℚ) (ders : Ders) (state : State)
    (period warmup_periods thr dt : ℚ) (fuel : ℕ) (t : ℚ)
    (hpi : 0 < pi) (hp : 0 < period)
    (h : time_up_to_thr (integrate_period state ders (warmup_periods * period) dt) ders
      thr dt fuel = .ok t) :
    oscillator_phase pi ders state period warmup_periods thr dt fuel =
      .ok (2 * pi * (1 - t / period)) ∧
    ((0 ≤ 2 * pi * (1 - t / period) ∧ 2 * pi * (1 - t / period) < 2 * pi) ↔
      (0 < t ∧ t ≤ period)) ∧
    (2 * pi * (1 - t / period) = 0 ↔ t = period) := by
  have h2pi : (0 : ℚ) < 2 * pi := by linarith
  have e1 : 0 ≤ 2 * pi * (1 - t / period) ↔ t ≤ period := by
    rw [mul_nonneg_iff_of_pos_left h2pi]
    constructor
    · intro hx
      have : t / period ≤ 1 := by linarith
      exact (div_le_one hp).mp this
    · intro hx
      have : t / period ≤ 1 := (div_le_one hp).mpr hx
      linarith
  have e2 : 2 * pi * (1 - t / period) < 2 * pi ↔ 0 < t := by
    have hone : 2 * pi * (1 - t / period) < 2 * pi ↔
        2 * pi * (1 - t / period) < 2 * pi * 1 := by rw [mul_one]
    rw [hone, mul_lt_mul_left h2pi]
    constructor
    · intro hx
      have htp : 0 < t / period := by linarith
      rcases div_pos_iff.mp htp with ⟨ht, _⟩ | ⟨_, hpneg⟩
      · exact ht
      · linarith
    · intro hx
      have : 0 < t / period := div_pos hx hp
      linarith
  have e3 : 2 * pi * (1 - t / period) = 0 ↔ t = period := by
    rw [mul_eq_zero]
    constructor
    · rintro (hc | hc)
      · exact absurd hc (ne_of_gt h2pi)
      · have : t / period = 1 := by linarith
        exact (div_eq_one_iff_eq (ne_of_gt hp)).mp this
    · intro ht
      right
      rw [ht, div_self (ne_of_gt hp)]
      ring
  refine ⟨?_, ?_, e3⟩
  · unfold oscillator_phase
    simp only [Res.bind_def]
    rw [h, Res.bind_ok]
  · constructor
    · rintro ⟨hx1, hx2⟩
      exact ⟨e2.mp hx2, e1.mp hx1⟩
    · rintro ⟨hx1, hx2⟩
      exact ⟨e1.mpr hx2, e2.mpr hx1⟩

unseal Rat.add Rat.mul Rat.sub Rat.inv in
/-- C4, witness: on `vf1` with `period = 8/3` the state `[-1/8]`
measures `t = 8/3 = period` after warmup, so the phase is exactly zero
and lies in `[0, 2π)` (with `pi` instantiated at 3). -/
theorem C4_phase_formula_witness :
    oscillator_phase 3 vf1 [-(1/8)] (8/3) 5 (-(1/8)) 1 100 =
      .ok (2 * 3 * (1 - (8/3) / (8/3))) ∧
    ((0 ≤ 2 * 3 * (1 - (8/3 : ℚ) / (8/3)) ∧ 2 * 3 * (1 - (8/3 : ℚ) / (8/3)) < 2 * 3) ↔
      (0 < (8/3 : ℚ) ∧ (8/3 : ℚ) ≤ 8/3)) ∧
    (2 * 3 * (1 - (8/3 : ℚ) / (8/3)) = 0 ↔ (8/3 : ℚ) = 8/3) :=
  C4_phase_formula 3 vf1 [-(1/8)] (8/3) 5 (-(1/8)) 1 100 (8/3) (by decide)
    (by decide) (by decide)

unseal Rat.add Rat.mul Rat.sub Rat.inv in
/-- C4, counterexample: on `vf1` with the parameter `period = 1` the
measured time from `[-1/8]` is `5/2 > period`, so `oscillator_phase`
returns `2π(1 - 5/2) = -4` (with `pi` at 3, and negative for every
positive `pi`), refuting the claim that the returned value always lies
in `[0, 2π)`. -/
theorem C4_counterexample :
    oscillator_phase 3 vf1 [-(1/8)] 1 5 (-(1/8)) 1 100 = .ok (-4) ∧
    ¬(0 ≤ (-4 : ℚ) ∧ (-4 : ℚ) < 2 * 3) := by decide

/-- C5: whenever they return at all, `sample_limit_cycle` and
`sample_local_isostable` (for any sampling count `n ≥ 1`) return lists
of exactly `n + 1` states whose first and last elements are equal, the
curve being closed by appending a copy of the first sample. -/
theorem C5_closed_sampling (ders : Ders) (sampling : ℕ) (period? : Option ℚ)
    (initial_state : Option State) (warmup_time thr dt : ℚ) (pi : ℚ) (sqrt exp : ℚ → ℚ)
    (period floquet sign shift : ℚ) (initial_state2 : Option State)
    (warmup_periods thr2 dt2 : ℚ) (fuel : ℕ) (lc iso : List State) (hs : 1 ≤ sampling) :
    (sample_limit_cycle ders sampling period? initial_state warmup_time thr dt fuel =
        .ok lc →
      lc.length = sampling + 1 ∧ lc.head? = lc.getLast?) ∧
    (sample_local_isostable pi sqrt exp ders sampling period floquet sign shift
        initial_state2 warmup_periods thr2 dt2 fuel = .ok iso →
      iso.length = sampling + 1 ∧ iso.head? = iso.getLast?) := by
  constructor
  · intro h
    exact ⟨sample_limit_cycle_ok_length _ _ _ _ _ _ _ _ _ h,
      sample_limit_cycle_ok_closed _ _ _ _ _ _ _ _ _ hs h⟩
  · intro h
    rcases sample_local_isostable_ok_shape _ _ _ _ _ _ _ _ _ _ _ _ _ _ _ h with ⟨l, hl, hiso⟩
    constructor
    · rw [hiso, List.length_append, hl]
      rfl
    · rw [hiso]
      refine closed_head_eq_last l [] ?_
      intro hn
      rw [hn] at hl
      simp at hl
      omega

unseal Rat.add Rat.mul Rat.sub Rat.inv in
set_option maxRecDepth 40000 in
/-- C5, witness: concrete successful runs of both samplers on `vf1`
with `sampling = 3`, each returning a closed 4-element list. -/
theorem C5_closed_sampling_witness :
    ((sample_limit_cycle vf1 3 (some (8/3)) (some [-(3/4)]) 0 (-(1/8)) 1 200).getD
      []).length = 3 + 1 ∧
    ((sample_limit_cycle vf1 3 (some (8/3)) (some [-(3/4)]) 0 (-(1/8)) 1 200).getD
      []).head? =
      ((sample_limit_cycle vf1 3 (some (8/3)) (some [-(3/4)]) 0 (-(1/8)) 1 200).getD
        []).getLast? ∧
    ((sample_local_isostable 3 idq exp2 vf1 3 (1/50) 1 1 (1/2) (some [-(3/4)]) 0 (-(1/8)) 1
      200).getD []).length = 3 + 1 ∧
    ((sample_local_isostable 3 idq exp2 vf1 3 (1/50) 1 1 (1/2) (some [-(3/4)]) 0 (-(1/8)) 1
      200).getD []).head? =
      ((sample_local_isostable 3 idq exp2 vf1 3 (1/50) 1 1 (1/2) (some [-(3/4)]) 0 (-(1/8))
        1 200).getD []).getLast? := by
  have hA := (C5_closed_sampling vf1 3 (some (8/3)) (some [-(3/4)]) 0 (-(1/8)) 1 3 idq exp2
    (1/50) 1 1 (1/2) (some [-(3/4)]) 0 (-(1/8)) 1 200
    ((sample_limit_cycle vf1 3 (some (8/3)) (some [-(3/4)]) 0 (-(1/8)) 1 200).getD [])
    ((sample_local_isostable 3 idq exp2 vf1 3 (1/50) 1 1 (1/2) (some [-(3/4)]) 0 (-(1/8)) 1
      200).getD []) (by decide)).1 (by decide)
  have hB := (C5_closed_sampling vf1 3 (some (8/3)) (some [-(3/4)]) 0 (-(1/8)) 1 3 idq exp2
    (1/50) 1 1 (1/2) (some [-(3/4)]) 0 (-(1/8)) 1 200
    ((sample_limit_cycle vf1 3 (some (8/3)) (some [-(3/4)]) 0 (-(1/8)) 1 200).getD [])
    ((sample_local_isostable 3 idq exp2 vf1 3 (1/50) 1 1 (1/2) (some [-(3/4)]) 0 (-(1/8)) 1
      200).getD []) (by decide)).2 (by decide)
  exact ⟨hA.1, hA.2, hB.1, hB.2⟩

/-- C6, amended: `oscillator_isostables` returns exactly
`2 × number_of_isostables` rings, the entry at index `2k` (resp.
`2k+1`) being the inside (resp. outside) ring of the `k+1`-st evolved
shell, so pairs are appended inside-before-outside in
increasing-amplitude order; and `oscillator_isochrons` returns exactly
`⌈sampling/isochron_resolution⌉` curves, each of length
`2 × (int(time_range/timestep) + 1)` where `int` is the Python truncation
toward zero (clamped below at zero iterations by the empty `range`) —
this agrees with the claimed `2 × (floor(time_range/timestep) + 1)`
exactly when `time_range/timestep ≥ 0` (final conjunct), and differs
otherwise (see the counterexample). -/
theorem C6_families (log : ℚ → ℚ) (ders : Ders) (local_iso_in local_iso_out : List State)
    (amplitude0 period floquet : ℚ) (number_of_isostables : ℕ) (amplitude_unit : ℚ)
    (isochron_resolution : ℕ) (amplitude_domain dt : ℚ) (sampling : ℕ)
    (h1 : local_iso_in.length = sampling + 1) (hs : 1 ≤ sampling)
    (hres : 1 ≤ isochron_resolution) :
    (oscillator_isostables log ders local_iso_in local_iso_out amplitude0 period floquet
      number_of_isostables amplitude_unit dt).length = 2 * number_of_isostables ∧
    (∀ k, k < number_of_isostables →
      (oscillator_isostables log ders local_iso_in local_iso_out amplitude0 period floquet
        number_of_isostables amplitude_unit dt).getD (2 * k) [] =
        ((shellNext log ders floquet dt)^[k + 1]
          (1, local_iso_in, local_iso_out, log (amplitude_unit / amplitude0) / floquet)).2.1 ∧
      (oscillator_isostables log ders local_iso_in local_iso_out amplitude0 period floquet
        number_of_isostables amplitude_unit dt).getD (2 * k + 1) [] =
        ((shellNext log ders floquet dt)^[k + 1]
          (1, local_iso_in, local_iso_out, log (amplitude_unit / amplitude0) /
            floquet)).2.2.1) ∧
    (oscillator_isochrons log ders local_iso_in local_iso_out amplitude0 period floquet
      isochron_resolution amplitude_domain dt).length =
      (sampling + isochron_resolution - 1) / isochron_resolution ∧
    (∀ c ∈ oscillator_isochrons log ders local_iso_in local_iso_out amplitude0 period
        floquet isochron_resolution amplitude_domain dt,
      c.length = 2 * ((pyint ((log (amplitude_domain / amplitude0) / floquet) /
        (period / (sampling : ℚ)))).toNat + 1)) ∧
    (∀ x : ℚ, 0 ≤ x → ((pyint x).toNat : ℤ) = ⌊x⌋) := by
  refine ⟨?_, ?_, ?_, ?_, ?_⟩
  · unfold oscillator_isostables
    exact isostablesLoop_length log ders floquet dt number_of_isostables 1 _ _ _
  · intro k hk
    unfold oscillator_isostables
    exact isostablesLoop_getD log ders floquet dt number_of_isostables 1 _ _ _ k hk
  · simp only [oscillator_isochrons]
    rw [h1, Nat.add_sub_cancel, List.length_map,
      range_filter_mod_length isochron_resolution hres sampling]
  · intro c hc
    simp only [oscillator_isochrons] at hc
    rw [h1, Nat.add_sub_cancel] at hc
    rcases List.mem_map.mp hc with ⟨i, hif, hceq⟩
    have hiN : i < sampling := List.mem_range.mp (List.mem_filter.mp hif).1
    rcases isochronsLoop_spec ders (period / (sampling : ℚ)) dt sampling
      (pyint ((log (amplitude_domain / amplitude0) / floquet) /
        (period / (sampling : ℚ)))).toNat 1 local_iso_in local_iso_out
      ((List.range sampling).map (fun i => [local_iso_in.getD i []]))
      ((List.range sampling).map (fun i => [local_iso_out.getD i []])) 1
      (by rw [List.length_map, List.length_range])
      (by rw [List.length_map, List.length_range])
      (by
        intro j hj
        rw [getD_map_range _ _ _ _ hj]
        rfl)
      (by
        intro j hj
        rw [getD_map_range _ _ _ _ hj]
        rfl)
      with ⟨g1, g2, g3, g4⟩
    rw [← hceq, List.length_append, List.length_map, List.length_range,
      g3 0 (by omega), g4 i hiN]
    omega
  · intro x hx
    unfold pyint
    rw [if_pos hx]
    exact Int.toNat_of_nonneg (Int.floor_nonneg.mpr hx)

unseal Rat.add Rat.mul Rat.sub Rat.inv in
/-- C6, witness: a concrete instantiation with 3-point rings
(`sampling = 2`), two shells, and unit resolution. -/
theorem C6_families_witness :
    (oscillator_isostables idq ders0 [[0], [1], [0]] [[2], [3], [2]] 1 1 1 2 1 1).length =
      2 * 2 ∧
    (∀ k, k < 2 →
      (oscillator_isostables idq ders0 [[0], [1], [0]] [[2], [3], [2]] 1 1 1 2 1
        1).getD (2 * k) [] =
        ((shellNext idq ders0 1 1)^[k + 1]
          (1, [[0], [1], [0]], [[2], [3], [2]], idq (1 / 1) / 1)).2.1 ∧
      (oscillator_isostables idq ders0 [[0], [1], [0]] [[2], [3], [2]] 1 1 1 2 1
        1).getD (2 * k + 1) [] =
        ((shellNext idq ders0 1 1)^[k + 1]
          (1, [[0], [1], [0]], [[2], [3], [2]], idq (1 / 1) / 1)).2.2.1) ∧
    (oscillator_isochrons idq ders0 [[0], [1], [0]] [[2], [3], [2]] 1 1 1 1 1 1).length =
      (2 + 1 - 1) / 1 ∧
    (∀ c ∈ oscillator_isochrons idq ders0 [[0], [1], [0]] [[2], [3], [2]] 1 1 1 1 1 1,
      c.length = 2 * ((pyint ((idq (1 / 1) / 1) / (1 / ((2 : ℕ) : ℚ)))).toNat + 1)) ∧
    (∀ x : ℚ, 0 ≤ x → ((pyint x).toNat : ℤ) = ⌊x⌋) :=
  C6_families idq ders0 [[0], [1], [0]] [[2], [3], [2]] 1 1 1 2 1 1 1 1 2 (by decide)
    (by decide) (by decide)

unseal Rat.add Rat.mul Rat.sub Rat.inv in
/-- C6, counterexample: with 2-point rings and parameters making
`time_range/timestep = -3/2`, the single isochron has length 2 (Python
truncates toward zero and performs no sweep iterations), while the
claimed formula `2 × (floor(-3/2) + 1)` equals `-2`. -/
theorem C6_counterexample :
    ((idq ((1 : ℚ) / 1)) / (-1)) / ((2/3 : ℚ) / ((1 : ℕ) : ℚ)) = -3/2 ∧
    (oscillator_isochrons idq ders0 [[0], [0]] [[0], [0]] 1 (2/3) (-1) 1 1 1).map
      List.length = [2] ∧
    ¬((2 : ℤ) = 2 * (⌊(-3/2 : ℚ)⌋ + 1)) := by decide

/-- C8: neither `oscillator_isostables` nor `oscillator_isochrons`
mutates its input ring objects: in the heap model, where both functions
`.copy()` their inputs and all element assignments target the copies,
the ring objects at `a_in` and `a_out` read back unchanged after
running `oscillator_isostables` and then — as the top-level
orchestrator `oscillator_isochrons_isostables` does — passing the same
two rings to `oscillator_isochrons`: each call sees the original
rings. -/
theorem C8_no_input_mutation (log : ℚ → ℚ) (ders : Ders) (amplitude0 period floquet : ℚ)
    (number_of_isostables : ℕ) (amplitude_unit : ℚ) (isochron_resolution : ℕ)
    (amplitude_domain dt : ℚ) (h : Heap) (a_in a_out : ℕ)
    (hin : a_in < h.mem.length) (hout : a_out < h.mem.length) :
    (oscillator_isostables_heap log ders amplitude0 period floquet number_of_isostables
      amplitude_unit dt h a_in a_out).1.read a_in = h.read a_in ∧
    (oscillator_isostables_heap log ders amplitude0 period floquet number_of_isostables
      amplitude_unit dt h a_in a_out).1.read a_out = h.read a_out ∧
    (oscillator_isochrons_heap log ders amplitude0 period floquet isochron_resolution
      amplitude_domain dt
      (oscillator_isostables_heap log ders amplitude0 period floquet number_of_isostables
        amplitude_unit dt h a_in a_out).1 a_in a_out).1.read a_in = h.read a_in ∧
    (oscillator_isochrons_heap log ders amplitude0 period floquet isochron_resolution
      amplitude_domain dt
      (oscillator_isostables_heap log ders amplitude0 period floquet number_of_isostables
        amplitude_unit dt h a_in a_out).1 a_in a_out).1.read a_out = h.read a_out := by
  rcases oscillator_isostables_heap_frame log ders amplitude0 period floquet
    number_of_isostables amplitude_unit dt h a_in a_out a_in hin with ⟨r1, rlen⟩
  rcases oscillator_isostables_heap_frame log ders amplitude0 period floquet
    number_of_isostables amplitude_unit dt h a_in a_out a_out hout with ⟨r2, _⟩
  refine ⟨r1, r2, ?_, ?_⟩
  · rw [oscillator_isochrons_heap_frame log ders amplitude0 period floquet
      isochron_resolution amplitude_domain dt _ a_in a_out a_in (by rw [rlen]; omega), r1]
  · rw [oscillator_isochrons_heap_frame log ders amplitude0 period floquet
      isochron_resolution amplitude_domain dt _ a_in a_out a_out (by rw [rlen]; omega), r2]

unseal Rat.add Rat.mul Rat.sub Rat.inv in
/-- C8, witness: a concrete two-object heap run through both heap-level
functions, the inputs reading back unchanged. -/
theorem C8_no_input_mutation_witness :
    (oscillator_isostables_heap idq ders0 1 1 1 1 1 1 ⟨[[[0]], [[1]]]⟩ 0 1).1.read 0 =
      Heap.read ⟨[[[0]], [[1]]]⟩ 0 ∧
    (oscillator_isostables_heap idq ders0 1 1 1 1 1 1 ⟨[[[0]], [[1]]]⟩ 0 1).1.read 1 =
      Heap.read ⟨[[[0]], [[1]]]⟩ 1 ∧
    (oscillator_isochrons_heap idq ders0 1 1 1 1 1 1
      (oscillator_isostables_heap idq ders0 1 1 1 1 1 1 ⟨[[[0]], [[1]]]⟩ 0 1).1 0
      1).1.read 0 = Heap.read ⟨[[[0]], [[1]]]⟩ 0 ∧
    (oscillator_isochrons_heap idq ders0 1 1 1 1 1 1
      (oscillator_isostables_heap idq ders0 1 1 1 1 1 1 ⟨[[[0]], [[1]]]⟩ 0 1).1 0
      1).1.read 1 = Heap.read ⟨[[[0]], [[1]]]⟩ 1 :=
  C8_no_input_mutation idq ders0 1 1 1 1 1 1 1 1 ⟨[[[0]], [[1]]]⟩ 0 1 (by decide) (by decide)

end EqPhaseRec
